import Mathlib

/-!
Verification development for the ocitree repository.

The development shallowly embeds the reference algebra
(`pkg/reference`, `pkg/reference/components`), the commit model and the
rebase engine (`pkg/libocitree`) of the ocitree code base and proves the
specification claims about them.

Strings are modelled as lists of characters (`Str`), Go functions
returning `(T, error)` become `Except Err T`, and Go run-time panics are
modelled by an explicit `GoRes.panicked` outcome.
-/

deriving instance DecidableEq for Except

namespace Ocitree

/-- Strings are modelled as lists of characters. -/
abbrev Str := List Char

/-- Converts a Lean string literal to the `Str` model. -/
def str (s : String) : Str := s.data

/-- Model of Go `strings.SplitN(s, sep, 2)` for a non-empty separator:
returns the parts before and after the first occurrence of `sep` in `s`,
or `none` when `sep` does not occur in `s`. -/
def splitFirst (sep : Str) (s : Str) : Option (Str × Str) :=
  match s with
  | [] => none
  | c :: s' =>
    if sep.isPrefixOf (c :: s') then some ([], (c :: s').drop sep.length)
    else match splitFirst sep s' with
      | some (a, b) => some (c :: a, b)
      | none => none

theorem splitFirst_length_lt {sep s : Str} {a b : Str}
    (h : splitFirst sep s = some (a, b)) (hsep : sep ≠ []) :
    b.length < s.length := by
  induction s generalizing a with
  | nil => simp [splitFirst] at h
  | cons c s' ih =>
    rw [splitFirst] at h
    by_cases hp : sep.isPrefixOf (c :: s')
    · simp only [hp, if_pos] at h
      cases h
      have hlen : 1 ≤ sep.length := by
        cases sep with
        | nil => exact absurd rfl hsep
        | cons _ _ => simp
      simp only [List.length_drop, List.length_cons]
      omega
    · simp only [hp, if_neg, Bool.false_eq_true, not_false_iff] at h
      cases hrec : splitFirst sep s' with
      | none => rw [hrec] at h; cases h
      | some p =>
        obtain ⟨a', b'⟩ := p
        rw [hrec] at h
        cases h
        have := ih hrec
        simp only [List.length_cons]
        omega

/-- Model of Go `strings.Split(s, sep)` for a single-character separator. -/
def splitChar (sep : Char) (s : Str) : List Str :=
  match s with
  | [] => [[]]
  | c :: s' =>
    if c == sep then [] :: splitChar sep s'
    else match splitChar sep s' with
      | [] => [[c]]
      | a :: rest => (c :: a) :: rest

/-- Model of Go `strings.SplitN(s, sep, n)` for a single-character
separator and `n ≥ 1`. -/
def splitNChar (sep : Char) (n : Nat) (s : Str) : List Str :=
  match n with
  | 0 => []
  | 1 => [s]
  | m + 1 =>
    match splitFirst [sep] s with
    | none => [s]
    | some (a, b) => a :: splitNChar sep m b

/-- Model of Go `strings.ToLower` on ASCII data. -/
def toLowerStr (s : Str) : Str := s.map Char.toLower

/-! ## Model of the docker reference grammar

The repository delegates name/tag/identifier validation and name
normalization to `github.com/containers/image/v5/docker/reference`.
The definitions below embed the relevant parts of that library:
the tag, path-component, domain and digest grammars, `Parse`,
`splitDockerDomain` and `ParseNormalizedNamed`. -/

/-- Character class `[a-f0-9]` used by identifier and digest grammars. -/
def isLowerHex (c : Char) : Bool := ('a' ≤ c && c ≤ 'f') || c.isDigit

/-- Model of `anchoredIdentifierRegexp`: a full 64-character hex image id. -/
def is64LowerHex (s : Str) : Bool := s.length == 64 && s.all isLowerHex

/-- Character class `[A-Za-z0-9_]` of the tag grammar. -/
def isWordChar (c : Char) : Bool := c.isAlphanum || c == '_'

/-- Model of `TagRegexp`: `[\w][\w.-]{0,127}`. -/
def tagMatches (s : Str) : Bool :=
  match s with
  | [] => false
  | c :: rest =>
    isWordChar c && decide (rest.length ≤ 127) &&
      rest.all (fun d => isWordChar d || d == '.' || d == '-')

/-- Character class `[a-z0-9]` of the path-component grammar. -/
def isPathAlnum (c : Char) : Bool := c.isDigit || ('a' ≤ c && c ≤ 'z')

/-- Separator token of the path-component grammar: `[._]`, `__` or a
non-empty run of `-`. -/
def isCompSep (r : Str) : Bool :=
  r == ['.'] || r == ['_'] || r == ['_', '_'] || (!r.isEmpty && r.all (· == '-'))

/-- Checks an alternating sequence of alphanumeric runs and separator runs,
starting and ending with an alphanumeric run. -/
def alternatingOK : List Str → Bool
  | [] => false
  | [r] => !r.isEmpty && r.all isPathAlnum
  | r :: sep :: rest =>
    !r.isEmpty && r.all isPathAlnum && isCompSep sep && alternatingOK rest

/-- Model of the path-component grammar
`[a-z0-9]+(?:(?:(?:[._]|__|[-]+)[a-z0-9]+)+)?`. -/
def pathComponentOK (s : Str) : Bool :=
  alternatingOK (s.splitBy (fun a b => isPathAlnum a == isPathAlnum b))

/-- Model of one DNS component of the domain grammar:
`[a-zA-Z0-9]|[a-zA-Z0-9][a-zA-Z0-9-]*[a-zA-Z0-9]`. -/
def domainComponentOK (s : Str) : Bool :=
  !s.isEmpty && s.all (fun c => c.isAlphanum || c == '-') &&
    s.head?.all Char.isAlphanum && s.getLast?.all Char.isAlphanum

/-- Model of the optional port of the domain grammar: `[0-9]+`. -/
def portOK (s : Str) : Bool := !s.isEmpty && s.all Char.isDigit

/-- Model of `DomainRegexp`: dot-separated DNS components with an
optional `:port` suffix. -/
def domainOK (s : Str) : Bool :=
  match splitFirst [':'] s with
  | none => (splitChar '.' s).all domainComponentOK
  | some (host, port) => (splitChar '.' host).all domainComponentOK && portOK port

/-- Checks a slash-separated sequence of path components. -/
def pathOK (s : Str) : Bool :=
  (splitChar '/' s).all pathComponentOK

/-- Model of `NameRegexp`: `(?:domain/)?path-component(?:/path-component)*`. -/
def nameOK (s : Str) : Bool :=
  match splitFirst ['/'] s with
  | none => pathComponentOK s
  | some (d, rest) => (domainOK d && pathOK rest) || pathOK s

/-- Model of the digest grammar as accepted by `digest.Parse`: a
registered algorithm, a colon, and a hex string of the algorithm's length. -/
def digestOK (s : Str) : Bool :=
  match splitFirst [':'] s with
  | none => false
  | some (alg, hex) =>
    ((alg == str "sha256" && hex.length == 64) ||
     (alg == str "sha384" && hex.length == 96) ||
     (alg == str "sha512" && hex.length == 128)) && hex.all isLowerHex

/-- Error outcomes of the embedded parsers. Docker-library grammar errors
are collapsed into `invalidFormat` except where the repository
distinguishes them; the repository's own sentinel errors keep one
constructor each. -/
inductive Err where
  /-- Any grammar violation inside the docker reference library. -/
  | invalidFormat : Err
  /-- ParseNormalizedNamed rejecting a bare 64-hex string as a name. -/
  | invalidNameHex : Err
  /-- ParseNormalizedNamed "repository name must be lowercase". -/
  | repoNameLowercase : Err
  /-- Name length above NameTotalLengthMax. -/
  | nameTooLong : Err
  /-- components: wrapped tag parse error (`ErrTagInvalidFormat`). -/
  | tagInvalid : Err
  /-- components: wrapped identifier parse error. -/
  | idParse : Err
  /-- components: wrapped name parse error. -/
  | nameParse (cause : Err) : Err
  /-- components `ErrIdContainsName`. -/
  | idContainsName : Err
  /-- components `ErrIdContainsTag`. -/
  | idContainsTag : Err
  /-- components `ErrIdContainsNoDigest`. -/
  | idContainsNoDigest : Err
  /-- components `ErrNotIdentifierNorTag`. -/
  | notIdentifierNorTag : Err
  /-- reference `ErrNameContainsTagOrDigest`. -/
  | nameContainsTagOrDigest : Err
  /-- reference `ErrReferenceMissingName`. -/
  | referenceMissingName : Err
  /-- reference `ErrRemoteRepoReferenceContainsReservedTag`. -/
  | remoteReservedTag : Err
  /-- reference `ErrInvalidOffsetFormat`. -/
  | invalidOffsetFormat : Err
  /-- strconv.Atoi failure while parsing a `~N` offset. -/
  | offsetAtoi : Err
deriving DecidableEq, Repr

/-- Result of a parsed docker reference: a name plus an optional tag and
an optional digest. -/
structure ParsedRef where
  name : Str
  tag : Option Str
  dig : Option Str
deriving DecidableEq, Repr

/-- Splits off the digest part of a reference at the first `@`. -/
def splitDigestPart (s : Str) : Str × Option Str :=
  match splitFirst ['@'] s with
  | none => (s, none)
  | some (a, b) => (a, some b)

/-- Splits off the last slash: returns the parts before and after it,
computed by locating the first slash of the reversed string. -/
def splitLastSlash (s : Str) : Option (Str × Str) :=
  match splitFirst ['/'] s.reverse with
  | none => none
  | some (a, b) => some (b.reverse, a.reverse)

/-- The tag separator is the first colon after the last slash of the
name part; this mirrors the greediness of `ReferenceRegexp`. -/
def splitTagPart (s : Str) : Str × Option Str :=
  match splitLastSlash s with
  | none =>
    match splitFirst [':'] s with
    | none => (s, none)
    | some (n, t) => (n, some t)
  | some (pre, post) =>
    match splitFirst [':'] post with
    | none => (s, none)
    | some (n, t) => (pre ++ '/' :: n, some t)

/-- Model of docker `reference.Parse`: splits a reference string into
name, optional tag and optional digest, validating each part. -/
def dockerParse (s : Str) : Except Err ParsedRef :=
  let (rest, odig) := splitDigestPart s
  let (nm, otag) := splitTagPart rest
  if !nameOK nm then .error .invalidFormat
  else if nm.length > 255 then .error .nameTooLong
  else if !(match otag with | none => true | some t => tagMatches t) then
    .error .invalidFormat
  else if !(match odig with | none => true | some d => digestOK d) then
    .error .invalidFormat
  else .ok ⟨nm, otag, odig⟩

def defaultDomain : Str := str "docker.io"
def legacyDefaultDomain : Str := str "index.docker.io"
def officialRepoName : Str := str "library"
def localhostName : Str := str "localhost"

/-- Model of docker `splitDockerDomain`. -/
def splitDockerDomain (name : Str) : Str × Str :=
  let (domain, remainder) :=
    match splitFirst ['/'] name with
    | none => (defaultDomain, name)
    | some (pre, post) =>
      if !(pre.contains '.' || pre.contains ':') && pre ≠ localhostName then
        (defaultDomain, name)
      else (pre, post)
  let domain := if domain = legacyDefaultDomain then defaultDomain else domain
  if domain = defaultDomain && !remainder.contains '/' then
    (domain, officialRepoName ++ '/' :: remainder)
  else (domain, remainder)

/-- Model of docker `reference.ParseNormalizedNamed`. -/
def parseNormalizedNamed (s : Str) : Except Err ParsedRef :=
  if is64LowerHex s then .error .invalidNameHex
  else
    let (domain, remainder) := splitDockerDomain s
    let remoteName :=
      match splitFirst [':'] remainder with
      | some (rn, _) => rn
      | none => remainder
    if toLowerStr remoteName ≠ remoteName then .error .repoNameLowercase
    else dockerParse (domain ++ '/' :: remainder)

/-! ## Model of `pkg/reference/components` -/

/-- Reserved tag `HEAD` (components constant `Head`). -/
def headTagStr : Str := str "HEAD"

/-- Reserved tag `REBASE_HEAD` (components constant `RebaseHead`). -/
def rebaseHeadStr : Str := str "REBASE_HEAD"

/-- Default remote tag `latest` (components constant `Latest`). -/
def latestStr : Str := str "latest"

/-- Model of `components.NameFromString`: validates and normalizes a name,
rejecting strings that carry a tag or a digest. -/
def nameFromString (name : Str) : Except Err Str :=
  match parseNormalizedNamed name with
  | .error e => .error (.nameParse e)
  | .ok ref =>
    if ref.tag.isSome || ref.dig.isSome then .error .nameContainsTagOrDigest
    else .ok ref.name

/-- Model of `components.TagFromString`, which validates the raw tag via
`reference.WithTag` against the anchored tag grammar. -/
def tagFromString (t : Str) : Except Err Str :=
  if tagMatches t then .ok t else .error .tagInvalid

/-- Returns the hex part of an `alg:hex` digest string. -/
def digestEncoded (s : Str) : Str :=
  match splitFirst [':'] s with
  | none => s
  | some (_, hex) => hex

/-- Model of `components.IdFromString`: accepts only strings that
`reference.ParseAnyReference` turns into a pure digest reference, namely
a bare 64-hex identifier or an `alg:hex` digest; anything that parses as
a named reference is rejected with `ErrIdContainsName`. -/
def idFromString (s : Str) : Except Err Str :=
  if is64LowerHex s then .ok s
  else if digestOK s then .ok (digestEncoded s)
  else
    match parseNormalizedNamed s with
    | .error _ => .error .idParse
    | .ok _ => .error .idContainsName

/-- Identifier-or-tag component of a reference. -/
inductive IdOrTag where
  | id (v : Str) : IdOrTag
  | tag (v : Str) : IdOrTag
deriving DecidableEq, Repr

/-- Model of `components.IdentifierOrTagFromString`: identifier parse
first, then tag parse, else `ErrNotIdentifierNorTag`. -/
def identifierOrTagFromString (idtag : Str) : Except Err IdOrTag :=
  match idFromString idtag with
  | .ok v => .ok (.id v)
  | .error _ =>
    match tagFromString idtag with
    | .ok t => .ok (.tag t)
    | .error _ => .error .notIdentifierNorTag

/-- Modelled from the spec: the printed form of the identifier-or-tag
component. The file of `pkg/reference/components` that implements
`IdOrTag()` is not part of the sources; per the spec a reference is
printed as `NAME:TAG` or `NAME@sha256:HEX`, and the interface comment in
the sources states that a returned id starts with `@sha256:` and a tag
with `:`. -/
def idOrTagStr : IdOrTag → Str
  | .id v => str "@sha256:" ++ v
  | .tag t => ':' :: t

/-! ## Model of `pkg/reference` (innerRef, local, remote, relative) -/

/-- Marker of the identifier component (`IdPrefix` constant). -/
def idMarker : Str := str "@sha256:"

/-- Model of the `innerRef` struct: a validated name plus an
identifier-or-tag component. -/
structure InnerRef where
  name : Str
  idtag : IdOrTag
deriving DecidableEq, Repr

/-- Model of `newInnerRef`. -/
def newInnerRef (name idtag : Str) : Except Err InnerRef :=
  match nameFromString name with
  | .error e => .error e
  | .ok n =>
    match identifierOrTagFromString idtag with
    | .error e => .error e
    | .ok it => .ok ⟨n, it⟩

/-- Model of `innerRef.AbsoluteReference`. -/
def absoluteReference (r : InnerRef) : Str :=
  r.name ++ idOrTagStr r.idtag

/-- Model of `splitComponents`: split at the first `@sha256:`, else at
the first `:`, else no identifier-or-tag part. -/
def splitComponents (ref : Str) : Str × Str :=
  match splitFirst idMarker ref with
  | some (n, it) => (n, it)
  | none =>
    match splitFirst [':'] ref with
    | some (n, it) => (n, it)
    | none => (ref, [])

/-- Model of `LocalFromString` (`pkg/reference/local.go`). -/
def localFromString (localRef : Str) : Except Err InnerRef :=
  let (name, idtag) := splitComponents localRef
  if name = [] then .error .referenceMissingName
  else
    let idtag := if idtag = [] then headTagStr else idtag
    newInnerRef name idtag

/-- Model of `RemoteFromString` (`pkg/reference/remote.go`, the
components-based generation): like the local parse but with default tag
`latest` and a reserved-tag check on the identifier-or-tag string. -/
def remoteFromString (remoteRef : Str) : Except Err InnerRef :=
  let (name, idtag) := splitComponents remoteRef
  if name = [] then .error .referenceMissingName
  else
    let idtag := if idtag = [] then latestStr else idtag
    match newInnerRef name idtag with
    | .error e => .error e
    | .ok ref =>
      if idtag = headTagStr ∨ idtag = rebaseHeadStr then .error .remoteReservedTag
      else .ok ref

/-- Outcome of a Go function call that may return a value, return an
error, or panic at run time. -/
inductive GoRes (α : Type) where
  | ok (a : α) : GoRes α
  | err (e : Err) : GoRes α
  | panicked : GoRes α
deriving DecidableEq, Repr

/-- Matches the regular expression `(~\d+|\^+)` against a whole string. -/
def offsetSuffixMatch (s : Str) : Bool :=
  match s with
  | '~' :: ds => !ds.isEmpty && ds.all Char.isDigit
  | _ => !s.isEmpty && s.all (· == '^')

/-- Model of `offsetRegex.FindStringIndex` for `(~\d+|\^+)$`: index of
the leftmost position whose suffix matches the pattern entirely. -/
def findOffsetIdx : Str → Option Nat
  | [] => none
  | c :: rest =>
    if offsetSuffixMatch (c :: rest) then some 0
    else (findOffsetIdx rest).map (· + 1)

/-- Numeric value of a digit string. -/
def digitsToNat (s : Str) : Nat :=
  s.foldl (fun acc c => acc * 10 + (c.toNat - '0'.toNat)) 0

/-- Model of `parseOffset` (`pkg/reference/relative.go`): `^` run length
or decimal after `~`; panics on an empty offset string, errors on a
non-offset first character or an `Atoi` failure (overflow of int64). -/
def parseOffset (offset : Str) : GoRes Nat :=
  match offset with
  | [] => .panicked
  | '^' :: _ => .ok offset.length
  | '~' :: rest =>
    if rest.isEmpty then .ok 1
    else if rest.all Char.isDigit && digitsToNat rest < 2 ^ 63 then
      .ok (digitsToNat rest)
    else .err .offsetAtoi
  | _ => .err .invalidOffsetFormat

/-- A relative reference: a base reference plus a non-negative offset. -/
structure Relative where
  base : InnerRef
  offset : Nat
deriving DecidableEq, Repr

/-- Parses the base part of a relative reference: `splitComponents`,
default tag `HEAD`, then `newInnerRef`; this is the tail of
`RelativeFromString` after offset stripping. -/
def relBaseParse (ref : Str) : Except Err InnerRef :=
  let (name, idtag) := splitComponents ref
  let idtag := if idtag = [] then headTagStr else idtag
  newInnerRef name idtag

/-- Removes a single trailing colon, as `RelativeFromString` does after
stripping the offset suffix. -/
def stripTrailingColon (s : Str) : Str :=
  if s.getLast? = some ':' then s.dropLast else s

/-- Model of `RelativeFromString` (`pkg/reference/relative.go`): finds
the trailing offset pattern, parses it, strips it together with a
trailing `:` left behind, and parses the rest as the base reference.
The Go code indexes `ref[len(ref)-1]` after stripping, which panics when
the whole input is the offset suffix. -/
def relativeFromString (ref : Str) : GoRes Relative :=
  match findOffsetIdx ref with
  | some i =>
    match parseOffset (ref.drop i) with
    | .panicked => .panicked
    | .err e => .err e
    | .ok offset =>
      let ref' := ref.take i
      if ref' = [] then .panicked
      else
        match relBaseParse (stripTrailingColon ref') with
        | .error e => .err e
        | .ok base => .ok ⟨base, offset⟩
  | none =>
    match relBaseParse ref with
    | .error e => .err e
    | .ok base => .ok ⟨base, 0⟩

/-! ## Structural lemmas about the string splitters -/

theorem splitFirst_eq_none_of_not_mem {sep s : Str} {c : Char}
    (hc : c ∈ sep) (hs : c ∉ s) : splitFirst sep s = none := by
  induction s with
  | nil => rfl
  | cons a s' ih =>
    have hpre : sep.isPrefixOf (a :: s') = false := by
      cases hx : sep.isPrefixOf (a :: s') with
      | false => rfl
      | true =>
        have : sep <+: a :: s' := List.isPrefixOf_iff_prefix.mp hx
        exact absurd (this.subset hc) hs
    have hrec : splitFirst sep s' = none :=
      ih (fun hm => hs (List.mem_cons_of_mem _ hm))
    simp [splitFirst, hpre, hrec]

theorem splitFirst_single_append {c : Char} {n t : Str} (hc : c ∉ n) :
    splitFirst [c] (n ++ c :: t) = some (n, t) := by
  induction n with
  | nil =>
    have : [c].isPrefixOf (c :: t) = true := by simp [List.isPrefixOf]
    simp [splitFirst, this]
  | cons a n' ih =>
    have ha : ¬(c = a) := fun h => hc (h ▸ List.mem_cons_self a n')
    have hpre : [c].isPrefixOf (a :: (n' ++ c :: t)) = false := by
      simp [List.isPrefixOf, ha]
    have hrec := ih (fun hm => hc (List.mem_cons_of_mem _ hm))
    simp [splitFirst, hpre, hrec]

theorem splitComponents_no_colon {s : Str} (hcs : ':' ∉ s) :
    splitComponents s = (s, []) := by
  have h1 : splitFirst idMarker s = none :=
    splitFirst_eq_none_of_not_mem (show ':' ∈ idMarker by decide) hcs
  have h2 : splitFirst [':'] s = none :=
    splitFirst_eq_none_of_not_mem (List.mem_singleton.mpr rfl) hcs
  simp [splitComponents, h1, h2]

theorem splitComponents_name_tag {n t : Str} (hcn : ':' ∉ n)
    (ha : '@' ∉ n ++ ':' :: t) :
    splitComponents (n ++ ':' :: t) = (n, t) := by
  have h1 : splitFirst idMarker (n ++ ':' :: t) = none :=
    splitFirst_eq_none_of_not_mem (show '@' ∈ idMarker by decide) ha
  simp [splitComponents, h1, splitFirst_single_append hcn]

theorem tagMatches_props {t : Str} (h : tagMatches t = true) :
    t ≠ [] ∧ ':' ∉ t ∧ '@' ∉ t := by
  match t with
  | [] => simp [tagMatches] at h
  | c :: rest =>
    simp only [tagMatches, Bool.and_eq_true, List.all_eq_true] at h
    obtain ⟨⟨hw, _⟩, hall⟩ := h
    refine ⟨by simp, ?_, ?_⟩
    · intro hmem
      rcases List.mem_cons.mp hmem with rfl | hmem
      · exact absurd hw (by decide)
      · exact absurd (hall _ hmem) (by decide)
    · intro hmem
      rcases List.mem_cons.mp hmem with rfl | hmem
      · exact absurd hw (by decide)
      · exact absurd (hall _ hmem) (by decide)

theorem nameFromString_nil :
    nameFromString ([] : Str) = .error (.nameParse .invalidFormat) := by decide

theorem identifierOrTag_ok_of_tagMatches {t : Str} (h : tagMatches t = true) :
    ∃ it, identifierOrTagFromString t = .ok it := by
  unfold identifierOrTagFromString
  cases hid : idFromString t with
  | ok v => exact ⟨.id v, rfl⟩
  | error e =>
    refine ⟨.tag t, ?_⟩
    simp [tagFromString, h]

/-! ## Claim C5: local references default to the HEAD tag -/

/-- C5 (amended): for every valid reference string containing no colon
(hence no tag, no digest and no registry port), `LocalFromString` yields
the normalized name with the default tag `HEAD`, printed as `NAME:HEAD`. -/
theorem localFromString_defaults_to_head (s n : Str) (hcs : ':' ∉ s)
    (hn : nameFromString s = .ok n) :
    localFromString s = .ok ⟨n, .tag headTagStr⟩ ∧
    absoluteReference ⟨n, .tag headTagStr⟩ = n ++ ':' :: headTagStr := by
  have hs : s ≠ [] := by
    rintro rfl
    rw [nameFromString_nil] at hn
    cases hn
  have hhead : identifierOrTagFromString headTagStr = .ok (.tag headTagStr) := by decide
  refine ⟨?_, rfl⟩
  rw [localFromString, splitComponents_no_colon hcs]
  simp only [hs, if_neg, if_pos, newInnerRef, hn, hhead, reduceIte]

/-- Witness for C5 at the spec's own scenario S1: parsing `archlinux`. -/
theorem localFromString_defaults_to_head_witness :
    localFromString (str "archlinux") =
      .ok ⟨str "docker.io/library/archlinux", .tag headTagStr⟩ ∧
    absoluteReference ⟨str "docker.io/library/archlinux", .tag headTagStr⟩ =
      str "docker.io/library/archlinux:HEAD" := by
  have h := localFromString_defaults_to_head (str "archlinux")
    (str "docker.io/library/archlinux") (by decide) (by decide)
  exact ⟨h.1, by decide⟩

/-- Counterexample to C5 as stated: `localhost:5000/archlinux` is a valid
tagless and digestless reference string (the repository's own name parser
accepts it), yet `LocalFromString` rejects it because `splitComponents`
splits at the colon of the registry port. -/
theorem localFromString_port_counterexample :
    nameFromString (str "localhost:5000/archlinux") =
      .ok (str "localhost:5000/archlinux") ∧
    localFromString (str "localhost:5000/archlinux") =
      .error .notIdentifierNorTag := by decide

/-! ## Claim C4: reserved-tag exclusion for remote references -/

/-- C4 (amended): for every valid repository name without a registry
port and every valid tag `t`, parsing `name:t` as a remote reference
fails with the reserved-tag error exactly when `t` is `HEAD` or
`REBASE_HEAD`, and succeeds for every other valid tag. -/
theorem remoteFromString_reserved_iff (n nn t : Str)
    (hn : nameFromString n = .ok nn) (hcn : ':' ∉ n) (han : '@' ∉ n)
    (ht : tagMatches t = true) :
    (remoteFromString (n ++ ':' :: t) = .error .remoteReservedTag ↔
      t = headTagStr ∨ t = rebaseHeadStr) ∧
    (¬(t = headTagStr ∨ t = rebaseHeadStr) →
      ∃ r : InnerRef, r.name = nn ∧
        remoteFromString (n ++ ':' :: t) = .ok r) := by
  obtain ⟨htne, htc, hta⟩ := tagMatches_props ht
  have hs : n ≠ [] := by
    rintro rfl
    rw [nameFromString_nil] at hn
    cases hn
  have hmem : '@' ∉ n ++ ':' :: t := by
    intro hx
    rcases List.mem_append.mp hx with hx | hx
    · exact han hx
    · rcases List.mem_cons.mp hx with hx | hx
      · cases hx
      · exact hta hx
  obtain ⟨it, hit⟩ := identifierOrTag_ok_of_tagMatches ht
  rw [remoteFromString, splitComponents_name_tag hcn hmem]
  simp only [hs, if_neg, htne, newInnerRef, hn, hit, reduceIte]
  constructor
  · by_cases hres : t = headTagStr ∨ t = rebaseHeadStr
    · simp [hres]
    · simp [hres]
  · intro hres
    exact ⟨⟨nn, it⟩, rfl, by simp [hres]⟩

/-- Witness for C4 at name `archlinux`, tag `latest`. -/
theorem remoteFromString_reserved_iff_witness :
    (remoteFromString (str "archlinux" ++ ':' :: str "latest") =
        .error .remoteReservedTag ↔
      str "latest" = headTagStr ∨ str "latest" = rebaseHeadStr) ∧
    (¬(str "latest" = headTagStr ∨ str "latest" = rebaseHeadStr) →
      ∃ r : InnerRef, r.name = str "docker.io/library/archlinux" ∧
        remoteFromString (str "archlinux" ++ ':' :: str "latest") = .ok r) :=
  remoteFromString_reserved_iff (str "archlinux")
    (str "docker.io/library/archlinux") (str "latest")
    (by decide) (by decide) (by decide) (by decide)

/-- Counterexample to C4 as stated: with a port-carrying repository name,
the remote parse of `name:HEAD` fails with `ErrNotIdentifierNorTag`
rather than the reserved-tag error, and `name:latest` fails although its
tag is valid and not reserved. -/
theorem remoteFromString_port_counterexample :
    nameFromString (str "localhost:5000/archlinux") =
      .ok (str "localhost:5000/archlinux") ∧
    tagMatches (str "HEAD") = true ∧ tagMatches (str "latest") = true ∧
    remoteFromString (str "localhost:5000/archlinux:HEAD") =
      .error .notIdentifierNorTag ∧
    remoteFromString (str "localhost:5000/archlinux:latest") =
      .error .notIdentifierNorTag := by decide

/-! ## Claims C6 and C10: relative-reference parsing -/

theorem offsetSuffixMatch_iff (s : Str) :
    offsetSuffixMatch s = true ↔
      (∃ ds, s = '~' :: ds ∧ ds ≠ [] ∧ ds.all Char.isDigit = true) ∨
      (s ≠ [] ∧ s.all (· == '^') = true) := by
  match s with
  | [] => simp [offsetSuffixMatch]
  | c :: rest =>
    by_cases hc : c = '~'
    · subst hc
      simp only [offsetSuffixMatch]
      constructor
      · intro h
        simp only [Bool.and_eq_true, Bool.not_eq_true'] at h
        exact .inl ⟨rest, rfl, by simpa using h.1, h.2⟩
      · intro h
        rcases h with ⟨ds, heq, hne, hdig⟩ | ⟨_, hall⟩
        · cases heq
          simp [List.isEmpty_iff, hne, hdig]
        · simp at hall
    · have hred : offsetSuffixMatch (c :: rest) =
          (!(c :: rest).isEmpty && (c :: rest).all (· == '^')) := by
        unfold offsetSuffixMatch
        split
        · rename_i ds heq
          exact absurd (List.cons_eq_cons.mp heq).1 hc
        · rfl
      rw [hred]
      constructor
      · intro h
        simp only [Bool.and_eq_true] at h
        exact .inr ⟨by simp, h.2⟩
      · intro h
        rcases h with ⟨ds, heq, _, _⟩ | ⟨_, hall⟩
        · exact absurd (List.cons_eq_cons.mp heq).1 hc
        · simp [hall]

theorem offsetSuffixMatch_head {m : Str} (h : offsetSuffixMatch m = true) :
    m.head? = some '~' ∨ m.head? = some '^' := by
  rcases (offsetSuffixMatch_iff m).mp h with ⟨ds, rfl, _, _⟩ | ⟨hne, hall⟩
  · exact .inl rfl
  · cases m with
    | nil => exact absurd rfl hne
    | cons c rest =>
      right
      have := List.all_eq_true.mp hall c (List.mem_cons_self c rest)
      simp only [beq_iff_eq] at this
      simp [this]

theorem offsetSuffixMatch_cons_false {a : Char} {p m : Str}
    (hm : offsetSuffixMatch m = true)
    (hnc : ¬(m.head? = some '^' ∧ (a :: p).getLast? = some '^')) :
    offsetSuffixMatch (a :: (p ++ m)) = false := by
  have hmne : m ≠ [] := by
    rcases (offsetSuffixMatch_iff m).mp hm with ⟨ds, rfl, _, _⟩ | ⟨hne, _⟩
    · simp
    · exact hne
  by_contra hx
  have hx' : offsetSuffixMatch (a :: (p ++ m)) = true := by
    revert hx; cases offsetSuffixMatch (a :: (p ++ m)) <;> simp
  rcases (offsetSuffixMatch_iff _).mp hx' with ⟨ds, heq, _, hdig⟩ | ⟨_, hall⟩
  · -- the whole string would be `~` followed by digits, but `m` starts
    -- with `~` or `^`, neither of which is a digit
    obtain ⟨hae, hrest⟩ := List.cons_eq_cons.mp heq
    have hdig' : ∀ x ∈ p ++ m, x.isDigit = true := by
      intro x hxm
      exact List.all_eq_true.mp hdig x (hrest ▸ hxm)
    rcases offsetSuffixMatch_head hm with hh | hh <;>
    · cases m with
      | nil => exact absurd rfl hmne
      | cons c cs =>
        have := hdig' c (List.mem_append_right p (List.mem_cons_self c cs))
        simp only [List.head?] at hh
        cases hh
        exact absurd this (by decide)
  · -- the whole string would be a caret run, making `m` start with `^`
    -- and `a :: p` end with `^`
    have hallm : ∀ x ∈ a :: (p ++ m), x = '^' := by
      intro x hxm
      have := List.all_eq_true.mp hall x hxm
      simpa using this
    apply hnc
    constructor
    · cases m with
      | nil => exact absurd rfl hmne
      | cons c cs =>
        have := hallm c (List.mem_cons_of_mem a (List.mem_append_right p (List.mem_cons_self c cs)))
        simp [this]
    · have hne : (a :: p) ≠ [] := by simp
      rw [List.getLast?_eq_getLast _ hne]
      congr 1
      apply hallm
      rcases List.mem_cons.mp (List.getLast_mem hne) with h | h
      · rw [h]; exact List.mem_cons_self _ _
      · exact List.mem_cons_of_mem a (List.mem_append_left m h)

theorem findOffsetIdx_append {p m : Str} (hm : offsetSuffixMatch m = true)
    (hnc : ¬(m.head? = some '^' ∧ p.getLast? = some '^')) :
    findOffsetIdx (p ++ m) = some p.length := by
  induction p with
  | nil =>
    cases m with
    | nil =>
      rcases (offsetSuffixMatch_iff _).mp hm with ⟨ds, heq, _, _⟩ | ⟨hne, _⟩
      · cases heq
      · exact absurd rfl hne
    | cons c rest => simp [findOffsetIdx, hm]
  | cons a p' ih =>
    have hnc' : ¬(m.head? = some '^' ∧ p'.getLast? = some '^') := by
      intro ⟨h1, h2⟩
      apply hnc
      refine ⟨h1, ?_⟩
      have hne : p' ≠ [] := by
        intro h
        rw [h] at h2
        cases h2
      rw [List.getLast?_cons, h2]
      simp [List.getLast?_eq_none_iff, hne]
    have hfalse := offsetSuffixMatch_cons_false (p := p') hm hnc
    rw [List.cons_append, findOffsetIdx, hfalse]
    simp [ih hnc']

theorem parseOffset_of_match {m : Str} (hm : offsetSuffixMatch m = true)
    (hov : m.head? = some '~' → digitsToNat (m.drop 1) < 2 ^ 63) :
    parseOffset m =
      .ok (if m.head? = some '^' then m.length else digitsToNat (m.drop 1)) := by
  rcases (offsetSuffixMatch_iff m).mp hm with ⟨ds, rfl, hne, hdig⟩ | ⟨hne, hall⟩
  · have hov' := hov rfl
    simp only [List.drop_succ_cons, List.drop_zero] at hov'
    have h63 : digitsToNat ds < 9223372036854775808 := by
      have : (2 : ℕ) ^ 63 = 9223372036854775808 := by norm_num
      omega
    simp [parseOffset, List.isEmpty_iff, hne, hdig, hov', h63]
  · cases m with
    | nil => exact absurd rfl hne
    | cons c rest =>
      have hc : c = '^' := by
        have := List.all_eq_true.mp hall c (List.mem_cons_self c rest)
        simpa using this
      subst hc
      simp [parseOffset]

theorem findOffsetIdx_eq_none {s : Str}
    (h : ∀ i, offsetSuffixMatch (s.drop i) = false) :
    findOffsetIdx s = none := by
  induction s with
  | nil => rfl
  | cons c rest ih =>
    have h0 := h 0
    simp only [List.drop_zero] at h0
    have hrec : findOffsetIdx rest = none :=
      ih (fun i => by simpa [List.drop_succ_cons] using h (i + 1))
    simp [findOffsetIdx, h0, hrec]

/-- C6 (amended): relative parsing strips a trailing offset suffix plus a
single colon left dangling by it and parses the rest (which must be
non-empty) as the base with default tag `HEAD`; the offset equals the
caret-run length or the decimal after `~` (when it fits in an int);
without a suffix the offset is 0 and the whole string is the base. -/
theorem relativeFromString_offset_grammar :
    (∀ p m : Str, p ≠ [] → offsetSuffixMatch m = true →
      ¬(m.head? = some '^' ∧ p.getLast? = some '^') →
      (m.head? = some '~' → digitsToNat (m.drop 1) < 2 ^ 63) →
      relativeFromString (p ++ m) =
        match relBaseParse (stripTrailingColon p) with
        | .error e => .err e
        | .ok base =>
          .ok ⟨base,
            if m.head? = some '^' then m.length else digitsToNat (m.drop 1)⟩) ∧
    (∀ s : Str, (∀ i, offsetSuffixMatch (s.drop i) = false) →
      relativeFromString s =
        match relBaseParse s with
        | .error e => .err e
        | .ok base => .ok ⟨base, 0⟩) := by
  constructor
  · intro p m hp hm hnc hov
    rw [relativeFromString, findOffsetIdx_append hm hnc]
    simp only [List.drop_left, List.take_left, parseOffset_of_match hm hov]
    simp [hp]
  · intro s h
    rw [relativeFromString, findOffsetIdx_eq_none h]

theorem offsetSuffixMatch_drop_bound {s : Str}
    (h : ∀ j, j ≤ s.length → offsetSuffixMatch (s.drop j) = false) :
    ∀ i, offsetSuffixMatch (s.drop i) = false := by
  intro i
  by_cases hi : i ≤ s.length
  · exact h i hi
  · rw [List.drop_eq_nil_of_le (by omega)]
    decide

/-- Witness for C6 on `archlinux~2` (suffix case) and `archlinux`
(no-suffix case). -/
theorem relativeFromString_offset_grammar_witness :
    relativeFromString (str "archlinux~2") =
      .ok ⟨⟨str "docker.io/library/archlinux", .tag headTagStr⟩, 2⟩ ∧
    relativeFromString (str "archlinux") =
      .ok ⟨⟨str "docker.io/library/archlinux", .tag headTagStr⟩, 0⟩ := by
  have h1 := relativeFromString_offset_grammar.1 (str "archlinux") (str "~2")
    (by decide) (by decide) (by decide) (by decide)
  have h2 := relativeFromString_offset_grammar.2 (str "archlinux")
    (offsetSuffixMatch_drop_bound (by decide))
  constructor
  · rw [show str "archlinux~2" = str "archlinux" ++ str "~2" from rfl, h1]
    decide
  · rw [h2]
    decide

/-- Counterexample to C6 as stated: on the input `^` (a reference string
that ends with an offset suffix) the function panics instead of
returning, and on `a:b:~2` it does not parse the suffix-stripped
remainder `a:b:` (whose parse fails) but that remainder with its
trailing colon removed. -/
theorem relativeFromString_counterexample :
    relativeFromString (str "^") = .panicked ∧
    relativeFromString (str "a:b:~2") =
      .ok ⟨⟨str "docker.io/library/a", .tag (str "b")⟩, 2⟩ ∧
    relBaseParse (str "a:b:") = .error .notIdentifierNorTag := by decide

/-- C10: `RelativeFromString` panics on `~1`: after stripping the offset
suffix the code indexes `ref[len(ref)-1]` on the empty remainder, an
out-of-range access, contradicting its contract of returning a value or
an error. -/
theorem relativeFromString_panics_on_bare_offset :
    relativeFromString (str "~1") = .panicked := by decide

/-! ## Model of `pkg/libocitree`: commits (`commit.go`) -/

/-- Model of the fields of a `Commit` (one history entry) that the
verified claims depend on. -/
structure GoCommit where
  id : Str
  comment : Str
  createdBy : Str
deriving DecidableEq, Repr

/-- The `CommitPrefix` constant. -/
def commitPrefixStr : Str := str "/bin/sh -c #(ocitree) "

/-- Model of `Commit.WasCreatedByOcitree`. -/
def wasCreatedByOcitree (c : GoCommit) : Bool :=
  commitPrefixStr.isPrefixOf c.createdBy

/-- Model of `CommitOperation`. -/
inductive CommitOperation where
  | unknownOp : CommitOperation
  | execOp : CommitOperation
  | addOp : CommitOperation
deriving DecidableEq, Repr

/-- Model of `commitOperationFromString`. -/
def commitOperationFromString (s : Str) : CommitOperation :=
  if s = str "EXEC" then .execOp
  else if s = str "ADD" then .addOp
  else .unknownOp

/-- Model of `CommitOperation.String`. -/
def commitOperationString : CommitOperation → Str
  | .execOp => str "EXEC"
  | .addOp => str "ADD"
  | .unknownOp => str "UNKNOWN"

/-- Model of `Commit.Operation`: the first space-separated token after
the commit prefix, for ocitree-authored commits. -/
def commitOperation (c : GoCommit) : CommitOperation :=
  if !wasCreatedByOcitree c then .unknownOp
  else
    match splitNChar ' ' 2 (c.createdBy.drop commitPrefixStr.length) with
    | [] => .unknownOp
    | tok :: _ => commitOperationFromString tok

/-! ## Model of `pkg/libocitree`: commit encoding (`repository_commit.go`) -/

/-- Model of `strings.ReplaceAll(f, quote, backslash-quote)` used by
`stringList.String`. -/
def escapeQuotes (s : Str) : Str :=
  (s.map (fun c => if c = '"' then ['\\', '"'] else [c])).flatten

/-- Body of the `stringList.String` loop: each element double quoted,
a space after every element but the last. -/
def stringListBody : List Str → Str
  | [] => []
  | [f] => '"' :: (escapeQuotes f ++ ['"'])
  | f :: rest => ('"' :: (escapeQuotes f ++ ['"', ' '])) ++ stringListBody rest

/-- Model of `stringList.String`. -/
def stringListString (fl : List Str) : Str :=
  '[' :: (stringListBody fl ++ [']'])

/-- CreatedBy string built by `Repository.Exec` before the commit prefix
is added: `ExecCommitOperation.String() + stringList(command).String()`,
with `command = cmd :: args`. The source concatenates the two directly,
without a separating space. -/
def execCreatedBy (cmd : Str) (args : List Str) : Str :=
  commitOperationString .execOp ++ stringListString (cmd :: args)

/-- Model of the `commit` helper: the created_by stored in the layer is
the commit prefix followed by the options' CreatedBy string. -/
def storedCreatedBy (createdBy : Str) : Str := commitPrefixStr ++ createdBy

/-- C8: at the failing input `exec("touch", ["/abcdefg"])` (the input of
the repository's own `TestCommitExec`), the stored created_by lacks the
space the claim requires between `EXEC` and the bracketed list, and as a
consequence `Commit.Operation` no longer recognizes the commit as an
`EXEC` commit, contradicting the test's expectation. -/
theorem execCreatedBy_missing_space :
    storedCreatedBy (execCreatedBy (str "touch") [str "/abcdefg"]) =
      str "/bin/sh -c #(ocitree) EXEC[\"touch\" \"/abcdefg\"]" ∧
    storedCreatedBy (execCreatedBy (str "touch") [str "/abcdefg"]) ≠
      str "/bin/sh -c #(ocitree) EXEC [\"touch\" \"/abcdefg\"]" ∧
    commitOperation
      ⟨str "someid", str "",
        storedCreatedBy (execCreatedBy (str "touch") [str "/abcdefg"])⟩ =
      .unknownOp := by decide

/-! ## Model of `pkg/libocitree`: the rebase list (`rebase.go`) -/

/-- Model of `RebaseChoice`. -/
inductive RebaseChoice where
  | pick : RebaseChoice
  | drop : RebaseChoice
  | unknownChoice : RebaseChoice
deriving DecidableEq, Repr

/-- Model of `RebaseChoice.String`. -/
def rebaseChoiceString : RebaseChoice → Str
  | .pick => str "pick"
  | .drop => str "drop"
  | .unknownChoice => str "unknown"

/-- Model of `choiceFromString` (case-insensitive `pick`/`p`/`drop`/`d`). -/
def choiceFromString (s : Str) : RebaseChoice :=
  let l := toLowerStr s
  if l = str "pick" ∨ l = str "p" then .pick
  else if l = str "drop" ∨ l = str "d" then .drop
  else .unknownChoice

/-- Model of `RebaseCommit`: a commit, its original history index, and a
rebase choice. -/
structure RebaseCommit where
  commit : GoCommit
  index : Nat
  choice : RebaseChoice
deriving DecidableEq, Repr

/-- The choice-independent part of a rebase entry, used to state that an
operation only permutes entries and updates choices. -/
def rcKey (e : RebaseCommit) : GoCommit × Nat := (e.commit, e.index)

/-- The take-loop of `newRebaseCommits`: iterates the history from index
`i` (of a history of `n` commits) and stops at the first commit with an
empty id, the new base's id, a non-ocitree created_by, or the last
(root) position. -/
def rebaseBuild (commits : List GoCommit) (newBaseID : Str) (i n : Nat) :
    List RebaseCommit :=
  match commits with
  | [] => []
  | c :: rest =>
    if c.id = [] ∨ c.id = newBaseID ∨ ¬wasCreatedByOcitree c ∨ i = n - 1 then []
    else ⟨c, i, .pick⟩ :: rebaseBuild rest newBaseID (i + 1) n

/-- In-place swap of two list positions, the effect of Go's
`l[i], l[j] = l[j], l[i]`; out-of-range indices leave the list unchanged. -/
def listSwap {α : Type} (l : List α) (i j : Nat) : List α :=
  match l[i]?, l[j]? with
  | some a, some b => (l.set i b).set j a
  | _, _ => l

/-- Model of `RebaseCommits.Swap` with its `i != j` guard. -/
def rcSwap {α : Type} (l : List α) (i j : Nat) : List α :=
  if i = j then l else listSwap l i j

theorem rcSwap_length {α : Type} (l : List α) (i j : Nat) :
    (rcSwap l i j).length = l.length := by
  unfold rcSwap listSwap
  split
  · rfl
  · cases h1 : l[i]? <;> cases h2 : l[j]? <;> simp

/-- The reversal loop of `newRebaseCommits`: for `i` from `0` to
`len/2 - 1`, swap positions `i` and `len - (i+1)`. -/
def revGo {α : Type} (l : List α) (i : Nat) : List α :=
  if _h : i < l.length / 2 then revGo (rcSwap l i (l.length - (i + 1))) (i + 1)
  else l
termination_by l.length / 2 - i
decreasing_by
  rw [rcSwap_length]
  omega

/-- Model of `newRebaseCommits`: the take-loop followed by the in-place
reversal. -/
def newRebaseCommits (commits : List GoCommit) (newBaseID : Str) :
    List RebaseCommit :=
  revGo (rebaseBuild commits newBaseID 0 commits.length) 0

theorem rcSwap_getElem? {α : Type} (l : List α) (i j k : Nat)
    (hi : i < l.length) (hj : j < l.length) :
    (rcSwap l i j)[k]? =
      if k = i then l[j]? else if k = j then l[i]? else l[k]? := by
  have hgi : l[i]? = some l[i] := List.getElem?_eq_getElem hi
  have hgj : l[j]? = some l[j] := List.getElem?_eq_getElem hj
  by_cases hij : i = j
  · subst hij
    rw [rcSwap, if_pos rfl]
    by_cases hk : k = i
    · subst hk
      simp [hgi]
    · simp [hk]
  · rw [rcSwap, if_neg hij, listSwap, hgi, hgj]
    simp only [List.getElem?_set, List.length_set]
    by_cases hk1 : k = i <;> by_cases hk2 : k = j
    · exact absurd (hk1 ▸ hk2) hij
    · subst hk1
      simp [Ne.symm hij, hi, hgj, hij]
    · subst hk2
      simp [hk1, hj, hgi]
    · rw [if_neg (fun h => hk2 (Eq.symm h)), if_neg (fun h => hk1 (Eq.symm h)),
        if_neg hk1, if_neg hk2]

theorem revGo_getElem? {α : Type} (l : List α) (i k : Nat) :
    (revGo l i)[k]? =
      if i ≤ k ∧ k + i + 1 ≤ l.length then l[l.length - 1 - k]? else l[k]? := by
  by_cases h : i < l.length / 2
  case neg =>
    rw [revGo, dif_neg h]
    by_cases hc : i ≤ k ∧ k + i + 1 ≤ l.length
    · have hk : l.length - 1 - k = k := by omega
      rw [if_pos hc, hk]
    · rw [if_neg hc]
  case pos =>
    rw [revGo, dif_pos h]
    have hi : i < l.length := by omega
    have hj : l.length - (i + 1) < l.length := by omega
    have hlen := rcSwap_length l i (l.length - (i + 1))
    have hrec := revGo_getElem? (rcSwap l i (l.length - (i + 1))) (i + 1) k
    rw [hrec, hlen, rcSwap_getElem? l i (l.length - (i + 1)) k hi hj,
      rcSwap_getElem? l i (l.length - (i + 1)) (l.length - 1 - k) hi hj]
    split_ifs with h1 h2 h3 h4 h5 h6 h7 h8 h9 h10 h11 <;>
      first
      | rfl
      | omega
      | (congr 1; omega)
termination_by l.length / 2 - i
decreasing_by rw [rcSwap_length]; omega

theorem revGo_zero_eq_reverse {α : Type} (l : List α) : revGo l 0 = l.reverse := by
  apply List.ext_getElem?
  intro k
  rw [revGo_getElem?]
  by_cases hk : k < l.length
  · rw [if_pos ⟨Nat.zero_le k, by omega⟩, List.getElem?_reverse hk]
  · rw [if_neg (by omega), List.getElem?_eq_none (by omega),
      List.getElem?_eq_none (by simpa using Nat.le_of_not_lt hk)]

/-- Bool form of the stop condition of the `newRebaseCommits` loop. -/
def rebaseStops (newBaseID : Str) (n : Nat) (p : Nat × GoCommit) : Bool :=
  decide (p.2.id = []) || decide (p.2.id = newBaseID) ||
    !wasCreatedByOcitree p.2 || decide (p.1 = n - 1)

theorem rebaseStops_iff (newBaseID : Str) (n i : Nat) (c : GoCommit) :
    rebaseStops newBaseID n (i, c) = true ↔
      (c.id = [] ∨ c.id = newBaseID ∨ ¬wasCreatedByOcitree c ∨ i = n - 1) := by
  simp only [rebaseStops, Bool.or_eq_true, decide_eq_true_eq,
    Bool.not_eq_true', Bool.not_eq_true]
  tauto

/-- Definition written from the spec's words for C2: index the history,
take the maximal prefix whose commits all have a non-empty id, an id
different from the new base's, an ocitree created_by and are not the
tail commit; reverse that prefix and mark every entry `pick`. -/
def rebaseListSpec (commits : List GoCommit) (newBaseID : Str) :
    List RebaseCommit :=
  ((commits.enum.takeWhile
      (fun p => !rebaseStops newBaseID commits.length p)).map
    (fun p => ⟨p.2, p.1, .pick⟩)).reverse

theorem rebaseBuild_eq_takeWhile (commits : List GoCommit) (newBaseID : Str)
    (n : Nat) : ∀ i, rebaseBuild commits newBaseID i n =
      ((List.enumFrom i commits).takeWhile
          (fun p => !rebaseStops newBaseID n p)).map
        (fun p => ⟨p.2, p.1, .pick⟩) := by
  induction commits with
  | nil => intro i; rfl
  | cons c rest ih =>
    intro i
    rw [rebaseBuild, List.enumFrom_cons]
    by_cases hc : c.id = [] ∨ c.id = newBaseID ∨ ¬wasCreatedByOcitree c ∨
        i = n - 1
    · rw [if_pos hc,
        List.takeWhile_cons_of_neg
          (by simpa using ((rebaseStops_iff newBaseID n i c).mpr hc))]
      rfl
    · have hx : rebaseStops newBaseID n (i, c) = false := by
        cases hb : rebaseStops newBaseID n (i, c) with
        | false => rfl
        | true => exact absurd ((rebaseStops_iff newBaseID n i c).mp hb) hc
      rw [if_neg hc, List.takeWhile_cons_of_pos (by simp [hx]),
        List.map_cons, ih (i + 1)]

/-- C2: the rebase list built at session construction is exactly the
reversed maximal prefix of the indexed history whose commits all have a
non-empty id, an id different from the new base's, an ocitree-authored
created_by and are not the tail commit, every entry starting as `pick`. -/
theorem newRebaseCommits_eq_spec (commits : List GoCommit) (newBaseID : Str) :
    newRebaseCommits commits newBaseID = rebaseListSpec commits newBaseID := by
  rw [newRebaseCommits, revGo_zero_eq_reverse, rebaseListSpec,
    rebaseBuild_eq_takeWhile commits newBaseID commits.length 0]
  rfl

/-! ## Model of `RebaseCommits.GetByID` and `RebaseCommits.ParseChoices` -/

/-- Model of `GetByID`: the first commit whose id starts with the given
prefix, together with its index; an empty prefix matches nothing. -/
def getByID (l : List RebaseCommit) (idpre : Str) :
    Option (RebaseCommit × Nat) :=
  if idpre = [] then none
  else
    match l.findIdx? (fun c => idpre.isPrefixOf c.commit.id) with
    | none => none
    | some i =>
      match l[i]? with
      | some c => some (c, i)
      | none => none

/-- The parse errors of `ParseChoices`, each wrapped together with the
offending line as `parseChoiceError` does. -/
inductive RebaseErr where
  | unknownRebaseChoice (line : Str) : RebaseErr
  | invalidRebaseCommitID (line : Str) : RebaseErr
  | duplicateRebaseCommit (line : Str) : RebaseErr
deriving DecidableEq, Repr

/-- Loop state of `ParseChoices`: the commit list and the ids already
parsed, in parse order (`commitParsed` with its insertion order). -/
structure ParseState where
  list : List RebaseCommit
  parsed : List Str
deriving DecidableEq, Repr

/-- One iteration of the `ParseChoices` line loop. -/
def parseChoicesStep (st : ParseState) (line : Str) :
    Except RebaseErr ParseState :=
  if line = [] ∨ line.head? = some '#' then .ok st
  else
    match splitNChar ' ' 3 line with
    | [] => .ok st
    | [_] => .ok st
    | rawChoice :: rawID :: _ =>
      let choice := choiceFromString rawChoice
      if choice = .unknownChoice then .error (.unknownRebaseChoice line)
      else
        match getByID st.list rawID with
        | none => .error (.invalidRebaseCommitID line)
        | some (commit, i) =>
          if commit.commit.id ∈ st.parsed then
            .error (.duplicateRebaseCommit line)
          else
            let l1 := st.list.set i { commit with choice := choice }
            -- the source looks the commit up again after the choice
            -- write; ids are unchanged so the lookup finds the updated
            -- entry at the same index, and the default of `getD` is
            -- unreachable
            let li := (getByID l1 rawID).getD
              ({ commit with choice := choice }, i)
            .ok ⟨rcSwap l1 st.parsed.length li.2,
              st.parsed ++ [li.1.commit.id]⟩

/-- The line loop of `ParseChoices`. -/
def parseChoicesLoop (st : ParseState) :
    List Str → Except RebaseErr ParseState
  | [] => .ok st
  | line :: rest =>
    match parseChoicesStep st line with
    | .error e => .error e
    | .ok st2 => parseChoicesLoop st2 rest

/-- Model of `RebaseCommits.ParseChoices`: run the line loop over the
newline-split text, then force every commit past the parsed count to
`drop`. -/
def parseChoices (l : List RebaseCommit) (choices : Str) :
    Except RebaseErr (List RebaseCommit) :=
  match parseChoicesLoop ⟨l, []⟩ (splitChar '\n' choices) with
  | .error e => .error e
  | .ok st =>
    .ok (st.list.mapIdx (fun i e =>
      if st.parsed.length ≤ i then { e with choice := .drop } else e))

/-! ## List lemmas supporting the `ParseChoices` proofs -/

theorem getElem?_append_length {α : Type} (X : List α) (y : α) (R : List α) :
    (X ++ y :: R)[X.length]? = some y := by
  induction X with
  | nil => simp
  | cons a X ih => simpa using ih

theorem set_append_length {α : Type} (X : List α) (y z : α) (R : List α) :
    (X ++ y :: R).set X.length z = X ++ z :: R := by
  induction X with
  | nil => rfl
  | cons a X ih => simp [List.set_cons_succ, ih]

theorem listSwap_decomp {α : Type} (X M D : List α) (a b : α) :
    listSwap (X ++ a :: (M ++ b :: D)) X.length (X.length + M.length + 1) =
      X ++ b :: (M ++ a :: D) := by
  have hassoc : X ++ a :: (M ++ b :: D) = (X ++ a :: M) ++ b :: D := by simp
  have hlen : (X ++ a :: M).length = X.length + M.length + 1 := by
    simp only [List.length_append, List.length_cons]
    omega
  have h1 : (X ++ a :: (M ++ b :: D))[X.length]? = some a :=
    getElem?_append_length X a (M ++ b :: D)
  have h2 : (X ++ a :: (M ++ b :: D))[X.length + M.length + 1]? = some b := by
    rw [hassoc, ← hlen]
    exact getElem?_append_length (X ++ a :: M) b D
  rw [listSwap, h1, h2]
  show ((X ++ a :: (M ++ b :: D)).set X.length b).set
      (X.length + M.length + 1) a = X ++ b :: (M ++ a :: D)
  rw [set_append_length]
  have hassoc2 : X ++ b :: (M ++ b :: D) = (X ++ b :: M) ++ b :: D := by simp
  have hlen2 : (X ++ b :: M).length = X.length + M.length + 1 := by
    simp only [List.length_append, List.length_cons]
    omega
  rw [hassoc2, ← hlen2, set_append_length]
  simp

theorem rcSwap_decomp {α : Type} (X M D : List α) (a b : α) :
    rcSwap (X ++ a :: (M ++ b :: D)) X.length (X.length + M.length + 1) =
      X ++ b :: (M ++ a :: D) := by
  rw [rcSwap, if_neg (by omega), listSwap_decomp]

theorem perm_cons_middle_exchange {α : Type} (M D : List α) (a b : α) :
    (b :: (M ++ a :: D)).Perm (a :: (M ++ b :: D)) :=
  (List.Perm.cons b List.perm_middle).trans
    ((List.Perm.swap a b (M ++ D)).trans
      (List.Perm.cons a List.perm_middle.symm))

theorem mapIdx_if_ge_aux {α : Type} (g : α → α) (Y : List α) :
    ∀ k n : Nat, n ≤ k →
      List.mapIdx (fun i e => if n ≤ i + k then g e else e) Y = Y.map g := by
  induction Y with
  | nil => intro k n _; rfl
  | cons a Y ih =>
    intro k n hk
    rw [List.mapIdx_cons, if_pos (by omega)]
    have hfun : (fun i e => if n ≤ i + 1 + k then g e else e) =
        (fun i e => if n ≤ i + (k + 1) then g e else e) := by
      funext i e
      rw [Nat.add_assoc, Nat.add_comm 1 k]
    rw [List.map_cons, hfun, ih (k + 1) n (by omega)]

theorem mapIdx_threshold {α : Type} (g : α → α) (X Y : List α) :
    List.mapIdx (fun i e => if X.length ≤ i then g e else e) (X ++ Y) =
      X ++ Y.map g := by
  induction X with
  | nil =>
    have hfun : (fun i e => if List.length ([] : List α) ≤ i then g e else e) =
        (fun (i : Nat) e => if 0 ≤ i + 0 then g e else e) := by
      funext i e
      simp
    rw [List.nil_append, hfun, mapIdx_if_ge_aux g Y 0 0 le_rfl, List.nil_append]
  | cons a X ih =>
    rw [List.cons_append, List.mapIdx_cons, if_neg (by simp)]
    have hfun : (fun i e =>
        if (a :: X).length ≤ i + 1 then g e else e) =
        (fun i e => if X.length ≤ i then g e else e) := by
      funext i e
      simp only [List.length_cons]
      congr 1
      simp [Nat.succ_le_succ_iff]
    rw [hfun, ih, List.cons_append]

theorem findIdx?_none_of_all {α : Type} {p : α → Bool} :
    ∀ {A : List α}, (∀ x ∈ A, ¬p x = true) → A.findIdx? p = none := by
  intro A
  induction A with
  | nil => intro _; rfl
  | cons a A ih =>
    intro h
    rw [List.findIdx?_cons, if_neg (h a (List.mem_cons_self a A)),
      List.findIdx?_succ]
    rw [ih (fun x hx => h x (List.mem_cons_of_mem a hx))]
    rfl

theorem findIdx?_append_cons {α : Type} {p : α → Bool} (A : List α) {e : α}
    (D : List α) (hA : ∀ x ∈ A, ¬p x = true) (he : p e = true) :
    (A ++ e :: D).findIdx? p = some A.length := by
  induction A with
  | nil => simp [List.findIdx?_cons, he]
  | cons a A ih =>
    rw [List.cons_append, List.findIdx?_cons,
      if_neg (hA a (List.mem_cons_self a _)), List.findIdx?_succ,
      ih (fun x hx => hA x (List.mem_cons_of_mem a hx))]
    rfl

/-- `GetByID` finds the entry after a prefix of non-matching ones. -/
theorem getByID_exact (A D : List RebaseCommit) (e : RebaseCommit)
    (rawID : Str) (hne : rawID ≠ [])
    (hA : ∀ x ∈ A, ¬rawID.isPrefixOf x.commit.id = true)
    (he : rawID.isPrefixOf e.commit.id = true) :
    getByID (A ++ e :: D) rawID = some (e, A.length) := by
  simp only [getByID, hne, findIdx?_append_cons A D hA he, if_neg,
    reduceIte, getElem?_append_length]

/-- A list with exactly one entry satisfying `p` splits around that
entry. -/
theorem split_of_countP_one {α : Type} {p : α → Bool} :
    ∀ {Q : List α} {e : α}, Q.countP p = 1 → e ∈ Q → p e = true →
      ∃ T D, Q = T ++ e :: D ∧ (∀ x ∈ T, ¬p x = true) ∧
        (∀ x ∈ D, ¬p x = true) := by
  intro Q
  induction Q with
  | nil => intro e _ he; cases he
  | cons a Q ih =>
    intro e hcnt hmem hpe
    by_cases hpa : p a = true
    · have hQ0 : Q.countP p = 0 := by
        rw [List.countP_cons, if_pos hpa] at hcnt
        omega
      have hae : e = a := by
        rcases List.mem_cons.mp hmem with h | h
        · exact h
        · exact absurd hpe (List.countP_eq_zero.mp hQ0 e h)
      subst hae
      exact ⟨[], Q, rfl, by simp, List.countP_eq_zero.mp hQ0⟩
    · have hcnt2 : Q.countP p = 1 := by
        rw [List.countP_cons, if_neg hpa] at hcnt
        omega
      have hmem2 : e ∈ Q := by
        rcases List.mem_cons.mp hmem with h | h
        · exact absurd (h ▸ hpe) hpa
        · exact h
      obtain ⟨T, D, hQ, hT, hD⟩ := ih hcnt2 hmem2 hpe
      exact ⟨a :: T, D, by rw [hQ, List.cons_append],
        fun x hx => by
          rcases List.mem_cons.mp hx with h | h
          · exact h ▸ hpa
          · exact hT x h, hD⟩

/-! ## The `ParseChoices` loop invariant -/

theorem splitFirst_first_part {sep s a b : Str}
    (h : splitFirst sep s = some (a, b)) : a = [] ∨ a.head? = s.head? := by
  cases s with
  | nil => simp [splitFirst] at h
  | cons c s2 =>
    rw [splitFirst] at h
    by_cases hp : sep.isPrefixOf (c :: s2)
    · simp only [hp, if_pos] at h
      cases h
      exact .inl rfl
    · simp only [hp, Bool.false_eq_true, if_false] at h
      cases hr : splitFirst sep s2 with
      | none => rw [hr] at h; cases h
      | some p =>
        obtain ⟨a2, b2⟩ := p
        rw [hr] at h
        cases h
        exact .inr rfl

theorem splitNChar_first {sep : Char} {m : Nat} {s a : Str}
    {rest : List Str}
    (h : splitNChar sep (m + 2) s = a :: rest) :
    a = [] ∨ a.head? = s.head? := by
  have h2 : (match splitFirst [sep] s with
      | none => [s]
      | some (x, y) => x :: splitNChar sep (m + 1) y) = a :: rest := h
  cases hsp : splitFirst [sep] s with
  | none =>
    rw [hsp] at h2
    cases h2
    exact .inr rfl
  | some p =>
    obtain ⟨x, y⟩ := p
    rw [hsp] at h2
    cases h2
    exact splitFirst_first_part hsp

theorem choiceFromString_nil : choiceFromString [] = .unknownChoice := by decide

theorem choiceFromString_known_head {s : Str}
    (h : choiceFromString s ≠ .unknownChoice) :
    ∃ c rest, s = c :: rest ∧ (c.toLower = 'p' ∨ c.toLower = 'd') := by
  unfold choiceFromString at h
  by_cases h1 : toLowerStr s = str "pick" ∨ toLowerStr s = str "p"
  case pos =>
    cases s with
    | nil => rcases h1 with h1 | h1 <;> (rw [toLowerStr] at h1; cases h1)
    | cons c rest =>
      refine ⟨c, rest, rfl, .inl ?_⟩
      rcases h1 with h1 | h1 <;>
      · have h2 := congrArg List.head? h1
        rw [toLowerStr, List.map_cons] at h2
        exact Option.some.inj h2
  case neg =>
    rw [if_neg h1] at h
    by_cases h2 : toLowerStr s = str "drop" ∨ toLowerStr s = str "d"
    case pos =>
      cases s with
      | nil => rcases h2 with h2 | h2 <;> (rw [toLowerStr] at h2; cases h2)
      | cons c rest =>
        refine ⟨c, rest, rfl, .inr ?_⟩
        rcases h2 with h2 | h2 <;>
        · have h3 := congrArg List.head? h2
          rw [toLowerStr, List.map_cons] at h3
          exact Option.some.inj h3
    case neg => rw [if_neg h2] at h; exact absurd rfl h

/-- A line the `ParseChoices` loop skips: empty, a comment, or fewer
than two space-separated fields. -/
def lineSkipped (line : Str) : Prop :=
  line = [] ∨ line.head? = some '#' ∨ (splitNChar ' ' 3 line).length < 2

/-- The choice token written at the start of a line. -/
def lineChoice (line : Str) : RebaseChoice :=
  match splitNChar ' ' 3 line with
  | c :: _ => choiceFromString c
  | [] => .unknownChoice

/-- The line is `<choice> <id-prefix> ...` with a known choice and an id
prefix that matches exactly one entry of `l0`, namely `e`. -/
def lineNames (l0 : List RebaseCommit) (line : Str) (e : RebaseCommit) :
    Prop :=
  ∃ rawChoice rawID rest,
    splitNChar ' ' 3 line = rawChoice :: rawID :: rest ∧
    choiceFromString rawChoice ≠ .unknownChoice ∧
    rawID ≠ [] ∧ rawID.isPrefixOf e.commit.id = true ∧ e ∈ l0 ∧
    l0.countP (fun c => rawID.isPrefixOf c.commit.id) = 1

theorem parseChoicesStep_skip {st : ParseState} {line : Str}
    (h : lineSkipped line) : parseChoicesStep st line = .ok st := by
  rw [parseChoicesStep]
  by_cases h1 : line = [] ∨ line.head? = some '#'
  · rw [if_pos h1]
  · rw [if_neg h1]
    rcases h with h | h | h
    · exact absurd (.inl h) h1
    · exact absurd (.inr h) h1
    · cases hsp : splitNChar ' ' 3 line with
      | nil => rfl
      | cons a rest =>
        cases rest with
        | nil => rfl
        | cons b rest2 =>
          rw [hsp] at h
          exact absurd h (by simp only [List.length_cons]; omega)

/-- An entry with its assigned choice written into the choice field. -/
def choiceApplied (p : RebaseCommit × RebaseChoice) : RebaseCommit :=
  { p.1 with choice := p.2 }

/-- Loop invariant of `ParseChoices`: the parsed ids are those of the
directives processed so far, the processed entries sit at the front of
the list in parse order carrying their assigned choices, and the rest of
the list together with the processed originals is a permutation of the
original list. -/
def ParseInv (l : List RebaseCommit) (st : ParseState)
    (P : List (RebaseCommit × RebaseChoice)) : Prop :=
  st.parsed = P.map (fun p => p.1.commit.id) ∧
  ∃ Q, st.list = P.map choiceApplied ++ Q ∧
    (P.map Prod.fst ++ Q).Perm l

theorem parseChoicesStep_names {l : List RebaseCommit} {st : ParseState}
    {P : List (RebaseCommit × RebaseChoice)} {line : Str} {e : RebaseCommit}
    (hinv : ParseInv l st P) (hn : lineNames l line e)
    (hid : e.commit.id ∉ P.map (fun p => p.1.commit.id)) :
    ∃ st2, parseChoicesStep st line = .ok st2 ∧
      ParseInv l st2 (P ++ [(e, lineChoice line)]) := by
  obtain ⟨hparsed, Q, hlist, hperm⟩ := hinv
  obtain ⟨rawChoice, rawID, rest, hsplit, hchoice, hrne, hpre, hmem, hcnt⟩ := hn
  have hline1 : line ≠ [] := by
    intro hl
    subst hl
    have h2 : ([] : List Str) = rawID :: rest := (List.cons_eq_cons.mp hsplit).2
    cases h2
  have hline2 : ¬line.head? = some '#' := by
    intro hl
    rcases splitNChar_first (m := 1) hsplit with h0 | h0
    · rw [h0] at hchoice
      exact hchoice choiceFromString_nil
    · obtain ⟨c, crest, hceq, hcl⟩ := choiceFromString_known_head hchoice
      rw [hceq, hl] at h0
      have hc : c = '#' := by simpa using h0
      rcases hcl with hcl | hcl <;> (rw [hc] at hcl; exact absurd hcl (by decide))
  have h12 : ¬(line = [] ∨ line.head? = some '#') := not_or.mpr ⟨hline1, hline2⟩
  -- locate the uniquely matched entry inside the unprocessed suffix
  have hcntPQ : (P.map Prod.fst ++ Q).countP
      (fun c => rawID.isPrefixOf c.commit.id) = 1 := by
    rw [hperm.countP_eq]
    exact hcnt
  have heQ : e ∈ Q := by
    rcases List.mem_append.mp (hperm.mem_iff.mpr hmem) with h | h
    · obtain ⟨p, hp, hpe⟩ := List.mem_map.mp h
      exact absurd (List.mem_map.mpr ⟨p, hp, by rw [hpe]⟩) hid
    · exact h
  have hsums : (P.map Prod.fst).countP
        (fun c => rawID.isPrefixOf c.commit.id) = 0 ∧
      Q.countP (fun c => rawID.isPrefixOf c.commit.id) = 1 := by
    rw [List.countP_append] at hcntPQ
    have hpos : 0 < Q.countP (fun c => rawID.isPrefixOf c.commit.id) :=
      List.countP_pos_iff.mpr ⟨e, heQ, hpre⟩
    omega
  obtain ⟨T, D, hQ, hT, hD⟩ := split_of_countP_one hsums.2 heQ hpre
  have hA : ∀ x ∈ P.map choiceApplied,
      ¬(fun c => rawID.isPrefixOf c.commit.id) x = true := by
    intro x hx
    obtain ⟨p, hp, hpe⟩ := List.mem_map.mp hx
    have hnp := List.countP_eq_zero.mp hsums.1 p.1 (List.mem_map_of_mem _ hp)
    subst hpe
    exact hnp
  have hAT : ∀ x ∈ P.map choiceApplied ++ T,
      ¬(fun c => rawID.isPrefixOf c.commit.id) x = true := by
    intro x hx
    rcases List.mem_append.mp hx with h | h
    · exact hA x h
    · exact hT x h
  have hlist2 : st.list = (P.map choiceApplied ++ T) ++ e :: D := by
    rw [hlist, hQ, List.append_assoc]
  have hget : getByID st.list rawID =
      some (e, (P.map choiceApplied ++ T).length) := by
    rw [hlist2]
    exact getByID_exact _ _ _ _ hrne hAT hpre
  have hdup : e.commit.id ∉ st.parsed := by
    rw [hparsed]
    exact hid
  have hl1 : st.list.set (P.map choiceApplied ++ T).length
        { e with choice := choiceFromString rawChoice } =
      (P.map choiceApplied ++ T) ++
        { e with choice := choiceFromString rawChoice } :: D := by
    rw [hlist2, set_append_length]
  have hget2 : getByID ((P.map choiceApplied ++ T) ++
        { e with choice := choiceFromString rawChoice } :: D) rawID =
      some ({ e with choice := choiceFromString rawChoice },
        (P.map choiceApplied ++ T).length) :=
    getByID_exact _ _ _ _ hrne hAT hpre
  have hklen : st.parsed.length = (P.map choiceApplied).length := by
    rw [hparsed]
    simp
  have hlc : lineChoice line = choiceFromString rawChoice := by
    rw [lineChoice, hsplit]
  have hstep : parseChoicesStep st line = .ok
      ⟨rcSwap ((P.map choiceApplied ++ T) ++
          { e with choice := choiceFromString rawChoice } :: D)
        st.parsed.length (P.map choiceApplied ++ T).length,
       st.parsed ++ [e.commit.id]⟩ := by
    simp only [parseChoicesStep, h12, if_false, hsplit, hchoice, hget, hdup,
      hl1, hget2, reduceIte, Option.getD_some]
  cases T with
  | nil =>
    have hsw : rcSwap ((P.map choiceApplied ++ []) ++
          { e with choice := choiceFromString rawChoice } :: D)
        st.parsed.length (P.map choiceApplied ++ []).length =
        P.map choiceApplied ++
          { e with choice := choiceFromString rawChoice } :: D := by
      rw [List.append_nil, rcSwap, if_pos (by rw [hklen])]
    rw [hsw] at hstep
    refine ⟨_, hstep, ?_, D, ?_, ?_⟩
    · rw [hparsed, List.map_append]
      rfl
    · rw [List.map_append, List.append_assoc, hlc]
      rfl
    · rw [List.map_append, List.append_assoc]
      rw [hQ, List.nil_append] at hperm
      exact hperm
  | cons t T2 =>
    have hassoc3 : (P.map choiceApplied ++ t :: T2) ++
          { e with choice := choiceFromString rawChoice } :: D =
        P.map choiceApplied ++ t :: (T2 ++
          { e with choice := choiceFromString rawChoice } :: D) := by
      simp
    have hlen3 : (P.map choiceApplied ++ t :: T2).length =
        (P.map choiceApplied).length + T2.length + 1 := by
      simp only [List.length_append, List.length_cons]
      omega
    have hsw : rcSwap ((P.map choiceApplied ++ t :: T2) ++
          { e with choice := choiceFromString rawChoice } :: D)
        st.parsed.length (P.map choiceApplied ++ t :: T2).length =
        P.map choiceApplied ++
          { e with choice := choiceFromString rawChoice } ::
            (T2 ++ t :: D) := by
      rw [hassoc3, hklen, hlen3]
      exact rcSwap_decomp (P.map choiceApplied) T2 D t
        { e with choice := choiceFromString rawChoice }
    rw [hsw] at hstep
    refine ⟨_, hstep, ?_, T2 ++ t :: D, ?_, ?_⟩
    · rw [hparsed, List.map_append]
      rfl
    · rw [List.map_append, List.append_assoc, hlc]
      rfl
    · rw [List.map_append, List.append_assoc]
      have hinner : (e :: (T2 ++ t :: D)).Perm (t :: (T2 ++ e :: D)) :=
        perm_cons_middle_exchange T2 D t e
      rw [hQ, List.cons_append] at hperm
      exact ((List.Perm.append_left (P.map Prod.fst) hinner).trans hperm)

/-- A line of the choices text either carries no directive (blank,
comment, or fewer than two fields) or names exactly one commit of the
session list. -/
def lineDirective (l0 : List RebaseCommit) (line : Str) :
    Option RebaseCommit → Prop
  | none => lineSkipped line
  | some e => lineNames l0 line e

theorem parseChoicesLoop_inv {l : List RebaseCommit} :
    ∀ {lines : List Str} {refs : List (Option RebaseCommit)},
    List.Forall₂ (lineDirective l) lines refs →
    ∀ {st : ParseState} {P : List (RebaseCommit × RebaseChoice)},
    ParseInv l st P →
    (P.map (fun p => p.1.commit.id) ++
      (refs.filterMap id).map (fun e => e.commit.id)).Nodup →
    ∃ st2, parseChoicesLoop st lines = .ok st2 ∧
      ParseInv l st2
        (P ++ (lines.zip refs).filterMap
          (fun p => p.2.map (fun e => (e, lineChoice p.1)))) := by
  intro lines refs hall
  induction hall with
  | nil =>
    intro st P hinv _
    exact ⟨st, rfl, by simpa using hinv⟩
  | cons hd tl ih =>
    intro st P hinv hnd
    rename_i line ref lines2 refs2
    cases ref with
    | none =>
      have hstep : parseChoicesStep st line = .ok st :=
        parseChoicesStep_skip hd
      obtain ⟨st2, hloop, hinv2⟩ := ih hinv (by simpa using hnd)
      refine ⟨st2, ?_, ?_⟩
      · rw [parseChoicesLoop, hstep]
        exact hloop
      · simpa using hinv2
    | some e =>
      have hnd' : (P.map (fun p => p.1.commit.id) ++
          (e.commit.id ::
            (refs2.filterMap id).map (fun x => x.commit.id))).Nodup := by
        simpa using hnd
      have hid : e.commit.id ∉ P.map (fun p => p.1.commit.id) := by
        intro hmem
        exact (List.disjoint_of_nodup_append hnd') hmem (by simp)
      obtain ⟨st1, hstep, hinv1⟩ := parseChoicesStep_names hinv hd hid
      have hnd2 : ((P ++ [(e, lineChoice line)]).map
            (fun p => p.1.commit.id) ++
          (refs2.filterMap id).map (fun x => x.commit.id)).Nodup := by
        rw [List.map_append]
        simpa [List.append_assoc] using hnd'
      obtain ⟨st2, hloop, hinv2⟩ := ih hinv1 hnd2
      refine ⟨st2, ?_, ?_⟩
      · rw [parseChoicesLoop, hstep]
        exact hloop
      · simpa [List.append_assoc] using hinv2

/-- The directives extracted from a choices text: the referenced commit
of every significant line paired with the choice written on that line. -/
def refDirectives (lines : List Str) (refs : List (Option RebaseCommit)) :
    List (RebaseCommit × RebaseChoice) :=
  (lines.zip refs).filterMap
    (fun p => p.2.map (fun e => (e, lineChoice p.1)))

/-- C3: on a choices text whose significant lines each name a distinct
commit of the session list, `ParseChoices` succeeds; the output holds the
referenced commits with exactly the choices written on their lines,
every commit not referenced by any line with choice forced to `drop`,
and the underlying commits are a permutation of the original list. -/
theorem parseChoices_spec {l : List RebaseCommit}
    {text : Str} {refs : List (Option RebaseCommit)}
    (hall : List.Forall₂ (lineDirective l) (splitChar '\n' text) refs)
    (hnd : ((refs.filterMap id).map (fun e => e.commit.id)).Nodup) :
    ∃ Q, parseChoices l text = .ok
        ((refDirectives (splitChar '\n' text) refs).map choiceApplied ++
          Q.map (fun e => { e with choice := RebaseChoice.drop })) ∧
      ((refDirectives (splitChar '\n' text) refs).map Prod.fst ++ Q).Perm
        l := by
  have hinv0 : ParseInv l ⟨l, []⟩ [] := by
    exact ⟨rfl, l, rfl, List.Perm.refl l⟩
  obtain ⟨st2, hloop, hparsed, Q, hlist, hperm⟩ :=
    parseChoicesLoop_inv hall hinv0 (by simpa using hnd)
  rw [List.nil_append] at hparsed hlist hperm
  refine ⟨Q, ?_, hperm⟩
  rw [parseChoices, hloop]
  show Except.ok (st2.list.mapIdx (fun i e =>
      if st2.parsed.length ≤ i then { e with choice := RebaseChoice.drop }
      else e)) = _
  have hlen : st2.parsed.length =
      ((refDirectives (splitChar '\n' text) refs).map
        choiceApplied).length := by
    rw [hparsed, refDirectives]
    simp
  rw [hlist, refDirectives]
  congr 1
  rw [← refDirectives, hlen]
  exact mapIdx_threshold _ _ Q

/-- A two-entry session list used to evaluate the `ParseChoices`
theorems on concrete input. -/
def demoCommitA : RebaseCommit := ⟨⟨str "aaa", [], []⟩, 0, .pick⟩

def demoCommitB : RebaseCommit := ⟨⟨str "bbb", [], []⟩, 1, .pick⟩

def demoList : List RebaseCommit := [demoCommitA, demoCommitB]

def demoRefs : List (Option RebaseCommit) := [some demoCommitB]

theorem parseChoices_spec_witness :
    ∃ Q, parseChoices demoList (str "pick bbb") = .ok
        ((refDirectives (splitChar '\n' (str "pick bbb")) demoRefs).map
            choiceApplied ++
          Q.map (fun e => { e with choice := RebaseChoice.drop })) ∧
      ((refDirectives (splitChar '\n' (str "pick bbb")) demoRefs).map
          Prod.fst ++ Q).Perm demoList := by
  refine parseChoices_spec ?_ (by decide)
  rw [show splitChar '\n' (str "pick bbb") = [str "pick bbb"] from by decide]
  exact List.Forall₂.cons
    ⟨str "pick", str "bbb", [], by decide, by decide, by decide, by decide,
      by decide, by decide⟩
    List.Forall₂.nil

/-! ## Permutation facts for the session invariant (C9) -/

theorem set_self {α : Type} :
    ∀ (l : List α) (i : Nat) (a : α), l[i]? = some a → l.set i a = l
  | [], _, _, h => by simp at h
  | x :: xs, 0, a, h => by
    simp only [List.getElem?_cons_zero, Option.some_inj] at h
    rw [List.set_cons_zero, h]
  | _ :: xs, n + 1, a, h => by
    simp only [List.getElem?_cons_succ] at h
    rw [List.set_cons_succ, set_self xs n a h]

theorem exists_one_split {α : Type} :
    ∀ (l : List α) (k : Nat), k < l.length →
      ∃ M b D, l = M ++ b :: D ∧ M.length = k
  | [], _, h => absurd h (by simp)
  | x :: xs, 0, _ => ⟨[], x, xs, rfl, rfl⟩
  | x :: xs, k + 1, h => by
    obtain ⟨M, b, D, h1, h2⟩ := exists_one_split xs k
      (by simp only [List.length_cons] at h; omega)
    exact ⟨x :: M, b, D, by rw [List.cons_append, h1], by simp [h2]⟩

theorem listSwap_perm_core {α : Type} {l : List α} {i j : Nat}
    (hij : i < j) (hj : j < l.length) : (listSwap l i j).Perm l := by
  obtain ⟨X, a, R, hd1, hl1⟩ := exists_one_split l i (Nat.lt_trans hij hj)
  have hRlen : j - i - 1 < R.length := by
    have := congrArg List.length hd1
    simp only [List.length_append, List.length_cons] at this
    omega
  obtain ⟨M, b, D, hd2, hl2⟩ := exists_one_split R (j - i - 1) hRlen
  subst hd2
  have hi2 : i = X.length := hl1.symm
  have hj2 : j = X.length + M.length + 1 := by omega
  rw [hd1, hi2, hj2, listSwap_decomp]
  exact List.Perm.append_left X (perm_cons_middle_exchange M D a b)

theorem listSwap_comm {α : Type} (l : List α) (i j : Nat) :
    listSwap l i j = listSwap l j i := by
  unfold listSwap
  cases h1 : l[i]? with
  | none => cases h2 : l[j]? <;> rfl
  | some a =>
    cases h2 : l[j]? with
    | none => rfl
    | some b =>
      show (l.set i b).set j a = (l.set j a).set i b
      by_cases hij : i = j
      · subst hij
        rw [h1] at h2
        cases h2
        rfl
      · exact List.set_comm b a l hij

theorem listSwap_perm {α : Type} (l : List α) (i j : Nat) :
    (listSwap l i j).Perm l := by
  rcases Nat.lt_trichotomy i j with hij | hij | hij
  · by_cases hj : j < l.length
    · exact listSwap_perm_core hij hj
    · have h2 : l[j]? = none := List.getElem?_eq_none (Nat.le_of_not_lt hj)
      unfold listSwap
      rw [h2]
      cases l[i]? <;> exact List.Perm.refl l
  · subst hij
    unfold listSwap
    cases h1 : l[i]? with
    | none => exact List.Perm.refl l
    | some a =>
      show ((l.set i a).set i a).Perm l
      rw [List.set_set, set_self l i a h1]
  · rw [listSwap_comm]
    by_cases hi : i < l.length
    · exact listSwap_perm_core hij hi
    · have h2 : l[i]? = none := List.getElem?_eq_none (Nat.le_of_not_lt hi)
      unfold listSwap
      rw [h2]
      cases l[j]? <;> exact List.Perm.refl l

theorem rcSwap_perm {α : Type} (l : List α) (i j : Nat) :
    (rcSwap l i j).Perm l := by
  rw [rcSwap]
  split
  · exact List.Perm.refl l
  · exact listSwap_perm l i j

theorem getByID_entry {l : List RebaseCommit} {p : Str}
    {c : RebaseCommit} {i : Nat} (h : getByID l p = some (c, i)) :
    l[i]? = some c := by
  rw [getByID] at h
  by_cases hp : p = []
  · rw [if_pos hp] at h
    cases h
  · rw [if_neg hp] at h
    cases hf : l.findIdx? (fun c => p.isPrefixOf c.commit.id) with
    | none =>
      rw [hf] at h
      cases h
    | some k =>
      rw [hf] at h
      have h2 : (match l[k]? with
          | some c => some (c, k)
          | none => none) = some (c, i) := h
      cases hg : l[k]? with
      | none =>
        rw [hg] at h2
        cases h2
      | some c2 =>
        rw [hg] at h2
        cases h2
        exact hg

theorem map_rcKey_set {l : List RebaseCommit} {i : Nat} {c : RebaseCommit}
    (h : l[i]? = some c) (ch : RebaseChoice) :
    (l.set i { c with choice := ch }).map rcKey = l.map rcKey := by
  rw [List.map_set]
  have h2 : (l.map rcKey)[i]? = some (rcKey c) := by
    rw [List.getElem?_map, h]
    rfl
  exact set_self _ i _ h2

theorem parseChoicesStep_perm {st st2 : ParseState} {line : Str}
    (h : parseChoicesStep st line = .ok st2) :
    (st2.list.map rcKey).Perm (st.list.map rcKey) := by
  rw [parseChoicesStep] at h
  by_cases h1 : line = [] ∨ line.head? = some '#'
  · rw [if_pos h1] at h
    cases h
    exact List.Perm.refl _
  · rw [if_neg h1] at h
    cases hsp : splitNChar ' ' 3 line with
    | nil =>
      rw [hsp] at h
      cases h
      exact List.Perm.refl _
    | cons rawChoice rest1 =>
      cases rest1 with
      | nil =>
        rw [hsp] at h
        cases h
        exact List.Perm.refl _
      | cons rawID rest2 =>
        rw [hsp] at h
        have h2 : (if choiceFromString rawChoice = RebaseChoice.unknownChoice
            then (Except.error (RebaseErr.unknownRebaseChoice line) :
              Except RebaseErr ParseState)
            else
              match getByID st.list rawID with
              | none => .error (.invalidRebaseCommitID line)
              | some (commit, i) =>
                if commit.commit.id ∈ st.parsed then
                  .error (.duplicateRebaseCommit line)
                else
                  .ok ⟨rcSwap (st.list.set i
                      { commit with choice := choiceFromString rawChoice })
                    st.parsed.length
                    ((getByID (st.list.set i
                        { commit with choice := choiceFromString rawChoice })
                      rawID).getD
                      ({ commit with choice := choiceFromString rawChoice },
                        i)).2,
                    st.parsed ++ [((getByID (st.list.set i
                        { commit with choice := choiceFromString rawChoice })
                      rawID).getD
                      ({ commit with choice := choiceFromString rawChoice },
                        i)).1.commit.id]⟩) = Except.ok st2 := h
        by_cases hch : choiceFromString rawChoice = RebaseChoice.unknownChoice
        · rw [if_pos hch] at h2
          cases h2
        · rw [if_neg hch] at h2
          cases hgb : getByID st.list rawID with
          | none =>
            rw [hgb] at h2
            cases h2
          | some ci =>
            obtain ⟨commit, i⟩ := ci
            rw [hgb] at h2
            have h3 : (if commit.commit.id ∈ st.parsed then
                (Except.error (RebaseErr.duplicateRebaseCommit line) :
                  Except RebaseErr ParseState)
              else
                .ok ⟨rcSwap (st.list.set i
                    { commit with choice := choiceFromString rawChoice })
                  st.parsed.length
                  ((getByID (st.list.set i
                      { commit with choice := choiceFromString rawChoice })
                    rawID).getD
                    ({ commit with choice := choiceFromString rawChoice },
                      i)).2,
                  st.parsed ++ [((getByID (st.list.set i
                      { commit with choice := choiceFromString rawChoice })
                    rawID).getD
                    ({ commit with choice := choiceFromString rawChoice },
                      i)).1.commit.id]⟩) = Except.ok st2 := h2
            by_cases hdup : commit.commit.id ∈ st.parsed
            · rw [if_pos hdup] at h3
              cases h3
            · rw [if_neg hdup] at h3
              cases h3
              have hp := (rcSwap_perm
                (st.list.set i
                  { commit with choice := choiceFromString rawChoice })
                st.parsed.length
                ((getByID (st.list.set i
                    { commit with choice := choiceFromString rawChoice })
                  rawID).getD
                  ({ commit with choice := choiceFromString rawChoice },
                    i)).2).map rcKey
              rw [map_rcKey_set (getByID_entry hgb)] at hp
              exact hp

theorem parseChoicesLoop_perm :
    ∀ {lines : List Str} {st st2 : ParseState},
      parseChoicesLoop st lines = .ok st2 →
      (st2.list.map rcKey).Perm (st.list.map rcKey)
  | [], _, _, h => by
    cases h
    exact List.Perm.refl _
  | line :: rest, st, st2, h => by
    rw [parseChoicesLoop] at h
    cases hs : parseChoicesStep st line with
    | error e =>
      rw [hs] at h
      cases h
    | ok st1 =>
      rw [hs] at h
      have h2 : parseChoicesLoop st1 rest = .ok st2 := h
      exact (parseChoicesLoop_perm h2).trans (parseChoicesStep_perm hs)

theorem map_rcKey_mapIdx (f : Nat → RebaseCommit → RebaseCommit)
    (hf : ∀ i e, rcKey (f i e) = rcKey e) (l : List RebaseCommit) :
    (l.mapIdx f).map rcKey = l.map rcKey := by
  apply List.ext_getElem?
  intro i
  rw [List.getElem?_map, List.getElem?_map, List.getElem?_mapIdx]
  cases l[i]? with
  | none => rfl
  | some e => simp [hf]

theorem parseChoices_perm {l : List RebaseCommit} {text : Str}
    {out : List RebaseCommit} (h : parseChoices l text = .ok out) :
    (out.map rcKey).Perm (l.map rcKey) := by
  rw [parseChoices] at h
  cases hl : parseChoicesLoop ⟨l, []⟩ (splitChar '\n' text) with
  | error e =>
    rw [hl] at h
    cases h
  | ok st =>
    rw [hl] at h
    have h2 : Except.ok (st.list.mapIdx (fun i e =>
        if st.parsed.length ≤ i then { e with choice := RebaseChoice.drop }
        else e)) = (Except.ok out : Except RebaseErr _) := h
    cases h2
    rw [map_rcKey_mapIdx _ (fun i e => by
      by_cases hc : st.parsed.length ≤ i <;> simp [hc, rcKey])]
    exact parseChoicesLoop_perm hl

theorem revGo_perm {α : Type} (l : List α) (i : Nat) :
    (revGo l i).Perm l := by
  rw [revGo]
  by_cases h : i < l.length / 2
  · rw [dif_pos h]
    exact (revGo_perm (rcSwap l i (l.length - (i + 1))) (i + 1)).trans
      (rcSwap_perm l i (l.length - (i + 1)))
  · rw [dif_neg h]
termination_by l.length / 2 - i
decreasing_by
  rw [rcSwap_length]
  omega

theorem rebaseBuild_mem {newBaseID : Str} :
    ∀ {commits : List GoCommit} {i n : Nat} {e : RebaseCommit},
      e ∈ rebaseBuild commits newBaseID i n →
        e.commit ∈ commits ∧ e.commit.id ≠ [] ∧
          wasCreatedByOcitree e.commit = true ∧ e.choice = .pick := by
  intro commits
  induction commits with
  | nil =>
    intro i n e h
    cases h
  | cons c rest ih =>
    intro i n e h
    rw [rebaseBuild] at h
    by_cases hc : c.id = [] ∨ c.id = newBaseID ∨
        ¬wasCreatedByOcitree c ∨ i = n - 1
    · rw [if_pos hc] at h
      cases h
    · rw [if_neg hc] at h
      push_neg at hc
      cases h with
      | head =>
        refine ⟨List.mem_cons_self c rest, hc.1, ?_, rfl⟩
        have := hc.2.2.1
        simpa using this
      | tail _ h2 =>
        obtain ⟨hm, h1, h2, h3⟩ := ih h2
        exact ⟨List.mem_cons_of_mem c hm, h1, h2, h3⟩

/-- C9: the rebase-session invariant.  Every entry of a freshly built
session list has a non-empty id and an ocitree-authored created_by,
both enforced by the stop condition of `newRebaseCommits` (histories
may well contain empty-id missing-layer commits — the stop condition
exists for them — and such commits simply never enter the list);
whenever the ids the history does carry are full 64-hex identifiers (as
the store produces), each entry's id is 64-hex and the 8-character
short id used when printing the list is well defined.  `ParseChoices`
only permutes the entries and rewrites their choices, so on every
successful parse the multiset of (commit, index) pairs — and with it
the invariant — is preserved. -/
theorem rebase_session_invariant :
    (∀ (commits : List GoCommit) (newBaseID : Str),
      ∀ e ∈ newRebaseCommits commits newBaseID,
        e.commit.id ≠ [] ∧ wasCreatedByOcitree e.commit = true ∧
        ((∀ c ∈ commits, c.id ≠ [] → is64LowerHex c.id = true) →
          is64LowerHex e.commit.id = true ∧
            (e.commit.id.take 8).length = 8)) ∧
    (∀ (l : List RebaseCommit) (text : Str) (out : List RebaseCommit),
      parseChoices l text = .ok out →
        (out.map rcKey).Perm (l.map rcKey)) := by
  constructor
  · intro commits newBaseID e he
    rw [newRebaseCommits] at he
    have he2 : e ∈ rebaseBuild commits newBaseID 0 commits.length :=
      (revGo_perm _ 0).mem_iff.mp he
    obtain ⟨hm, h1, h2, _⟩ := rebaseBuild_mem he2
    refine ⟨h1, h2, ?_⟩
    intro hhex
    have hx : is64LowerHex e.commit.id = true := hhex _ hm h1
    refine ⟨hx, ?_⟩
    have hlen : e.commit.id.length = 64 := by
      rw [is64LowerHex, Bool.and_eq_true, beq_iff_eq] at hx
      exact hx.1
    rw [List.length_take, hlen]
    decide
  · intro l text out h
    exact parseChoices_perm h

/-- A history whose tip is an ocitree commit with a 64-hex layer id and
whose root commit has no layer id at all (a missing layer). -/
def demoHistory : List GoCommit :=
  [⟨List.replicate 64 'a', [], commitPrefixStr ++ str "ADD x"⟩,
   ⟨[], [], commitPrefixStr⟩]

/-- The single session entry built from `demoHistory`. -/
def demoEntry : RebaseCommit :=
  ⟨⟨List.replicate 64 'a', [], commitPrefixStr ++ str "ADD x"⟩, 0, .pick⟩

/-- The output of `parseChoices demoList "pick bbb"`. -/
def demoParsedOut : List RebaseCommit :=
  [⟨⟨str "bbb", [], []⟩, 1, .pick⟩, ⟨⟨str "aaa", [], []⟩, 0, .drop⟩]

theorem rebase_session_invariant_witness :
    (demoEntry.commit.id ≠ [] ∧
      wasCreatedByOcitree demoEntry.commit = true ∧
      is64LowerHex demoEntry.commit.id = true ∧
      (demoEntry.commit.id.take 8).length = 8) ∧
    (demoParsedOut.map rcKey).Perm (demoList.map rcKey) := by
  constructor
  · have hlist : newRebaseCommits demoHistory [] = [demoEntry] := by
      rw [newRebaseCommits, revGo_zero_eq_reverse]
      decide
    have h := rebase_session_invariant.1 demoHistory [] demoEntry
      (by rw [hlist]; exact List.mem_singleton_self _)
    exact ⟨h.1, h.2.1, h.2.2 (by decide)⟩
  · exact rebase_session_invariant.2 demoList (str "pick bbb")
      demoParsedOut (by decide)

/-! ## Model of `Manager.Fetch` (C7)

`Fetch` lists the images carrying the repository's name, re-parses each
image name as a remote reference, pulls the matching ones, then pulls
the requested remote reference itself.  Pull failures are meant to be
accumulated with `multierror.Append(pullErrs, err)` — but the Go code
discards the value returned by `Append`, and a `*multierror.Error`
receiver is never mutated when it is nil, so `pullErrs` keeps its
initial nil value.  The model keeps the discarded call as a dead
binding. -/

/-- hashicorp `multierror.Append` on a possibly-nil accumulator: a nil
receiver makes `Append` allocate and return a fresh accumulator, the
receiver itself staying nil. -/
def multierrorAppend (acc : Option (List Str)) (e : Str) :
    Option (List Str) :=
  match acc with
  | none => some [e]
  | some l => some (l ++ [e])

/-- `(*multierror.Error).ErrorOrNil`: nil error for a nil or empty
accumulator. -/
def errorOrNil (acc : Option (List Str)) : Option (List Str) :=
  match acc with
  | none => none
  | some [] => none
  | some l => some l

/-- The world `Fetch` interacts with: whether the local repository
exists, the image listing (each image given by its list of names), and
the outcome of pulling a remote reference (`none` = success). -/
structure FetchWorld where
  localRepoExists : Bool
  images : Except Str (List (List Str))
  pull : InnerRef → Option Str

/-- The errors `Fetch` can return. -/
inductive FetchErr where
  | localRepositoryUnknown : FetchErr
  | listImagesFailed (e : Str) : FetchErr
  | pullFailed (l : List Str) : FetchErr
deriving DecidableEq, Repr

/-- One name of the image scan loop of `Fetch`: parse the name as a
remote reference (skipping invalid ones such as `HEAD` references),
skip names of other repositories, pull the rest; on a pull error the
code calls `multierror.Append(pullErrs, err)` and discards the returned
accumulator, leaving `pullErrs` untouched. -/
def fetchScanName (w : FetchWorld) (remoteName : Str)
    (acc : Option (List Str)) (name : Str) : Option (List Str) :=
  match remoteFromString name with
  | .error _ => acc
  | .ok imgRef =>
    if imgRef.name = remoteName then
      match w.pull imgRef with
      | none => acc
      | some e =>
        -- `multierror.Append(pullErrs, err)`: result discarded
        let _ := multierrorAppend acc e
        acc
    else acc

/-- Model of `Manager.Fetch` (`src/unnamed/part_019`): `none` is a nil
returned error. -/
def fetchGo (w : FetchWorld) (remoteRef : InnerRef) : Option FetchErr :=
  if w.localRepoExists = false then some .localRepositoryUnknown
  else
    match w.images with
    | .error e => some (.listImagesFailed e)
    | .ok imgs =>
      let pullErrs : Option (List Str) :=
        imgs.foldl (fun acc names =>
          names.foldl (fetchScanName w remoteRef.name) acc) none
      let pullErrs2 :=
        match w.pull remoteRef with
        | none => pullErrs
        | some e =>
          -- `multierror.Append(pullErrs, err)`: result discarded
          let _ := multierrorAppend pullErrs e
          pullErrs
      (errorOrNil pullErrs2).map .pullFailed

theorem fetchScanName_id (w : FetchWorld) (rn : Str)
    (acc : Option (List Str)) (name : Str) :
    fetchScanName w rn acc name = acc := by
  rw [fetchScanName]
  split
  · rfl
  · split
    · split <;> rfl
    · rfl

theorem foldl_fetchScanName (w : FetchWorld) (rn : Str) :
    ∀ (names : List Str) (acc : Option (List Str)),
      names.foldl (fetchScanName w rn) acc = acc
  | [], _ => rfl
  | n :: ns, acc => by
    rw [List.foldl_cons, fetchScanName_id]
    exact foldl_fetchScanName w rn ns acc

theorem foldl_fetchScan_outer (w : FetchWorld) (rn : Str) :
    ∀ (imgs : List (List Str)) (acc : Option (List Str)),
      imgs.foldl (fun acc names =>
        names.foldl (fetchScanName w rn) acc) acc = acc
  | [], _ => rfl
  | names :: rest, acc => by
    simp only [List.foldl_cons]
    rw [foldl_fetchScanName w rn names acc]
    exact foldl_fetchScan_outer w rn rest acc

/-- C7 (refuted — code bug): whenever the local repository exists and
the image listing succeeds, `Fetch` returns a nil error regardless of
how many pulls failed, because the accumulator returned by
`multierror.Append(pullErrs, err)` is discarded and the nil `pullErrs`
is never reassigned.  The claim says the call succeeds iff no
individual pull errored. -/
theorem fetchGo_ignores_pull_failures (w : FetchWorld) (r : InnerRef)
    (h1 : w.localRepoExists = true) {imgs : List (List Str)}
    (h2 : w.images = .ok imgs) :
    fetchGo w r = none := by
  have hc : ¬(w.localRepoExists = false) := by
    rw [h1]
    simp
  rw [fetchGo, if_neg hc, h2]
  have hfold := foldl_fetchScan_outer w r.name imgs none
  show (errorOrNil (match w.pull r with
      | none => imgs.foldl (fun acc names =>
          names.foldl (fetchScanName w r.name) acc) none
      | some _ => imgs.foldl (fun acc names =>
          names.foldl (fetchScanName w r.name) acc) none)).map
    FetchErr.pullFailed = none
  cases w.pull r with
  | none =>
    show (errorOrNil (imgs.foldl (fun acc names =>
        names.foldl (fetchScanName w r.name) acc) none)).map
      FetchErr.pullFailed = none
    rw [hfold]
    rfl
  | some e =>
    show (errorOrNil (imgs.foldl (fun acc names =>
        names.foldl (fetchScanName w r.name) acc) none)).map
      FetchErr.pullFailed = none
    rw [hfold]
    rfl

/-- A world where the repository exists, one image carries the
repository's name, and every pull — including the final pull of the
requested reference — fails. -/
def demoFetchWorld : FetchWorld :=
  ⟨true, .ok [[str "docker.io/library/archlinux:v1"]],
    fun _ => some (str "network unreachable")⟩

def demoRemoteRef : InnerRef :=
  ⟨str "docker.io/library/archlinux", .tag (str "v1")⟩

theorem fetchGo_ignores_pull_failures_witness :
    fetchGo demoFetchWorld demoRemoteRef = none ∧
    demoFetchWorld.pull demoRemoteRef = some (str "network unreachable") :=
  ⟨fetchGo_ignores_pull_failures demoFetchWorld demoRemoteRef rfl rfl, rfl⟩

/-! ## Model of the tag state for `RebaseSession.Apply` (C1)

`Apply` (rebase.go) validates the choices, no-ops on an empty list,
replays the picked commits onto `REBASE_HEAD`, then calls
`repository.Checkout(RebaseHead())` and
`repository.removeLocalTag(RebaseHeadTag)`.  The bodies of
`Repository.Checkout` and `Repository.removeLocalTag` are not among the
source files; they are modelled from the spec's checkout protocol
(resolve the target to an image and add the `HEAD` tag to it, the
store's name uniqueness moving `HEAD` off the previous image) and from
the spec's description of the private local-tag remover (remove the tag
from the `HEAD` layer).  A single repository is modelled, so a name is
just its tag. -/

structure StoreImage where
  id : Nat
  tags : List Str
deriving DecidableEq, Repr

/-- The holder of a tag: the first image of the store carrying it. -/
def tagHolder (s : List StoreImage) (t : Str) : Option Nat :=
  match s.find? (fun img => decide (t ∈ img.tags)) with
  | some img => some img.id
  | none => none

/-- containers-storage `AddNames`: names are unique across images, so
adding a tag to an image strips it from every other image. -/
def addTagTo (s : List StoreImage) (i : Nat) (t : Str) :
    List StoreImage :=
  s.map (fun img =>
    if img.id = i then
      { img with tags := img.tags.filter (fun x => decide (x ≠ t)) ++ [t] }
    else
      { img with tags := img.tags.filter (fun x => decide (x ≠ t)) })

/-- Modelled from the spec: the checkout protocol — resolve the target
tag to an image, then add the `HEAD` tag to that image. -/
def checkoutTag (s : List StoreImage) (t : Str) :
    Except Str (List StoreImage) :=
  match tagHolder s t with
  | none => .error (str "local reference not found")
  | some i => .ok (addTagTo s i headTagStr)

/-- Modelled from the spec: the repository's private local-tag remover,
usable on reserved tags — it removes the tag from the `HEAD` layer. -/
def removeLocalTagGo (s : List StoreImage) (t : Str) :
    Except Str (List StoreImage) :=
  match tagHolder s headTagStr with
  | none => .error (str "HEAD not found")
  | some i => .ok (s.map (fun img =>
      if img.id = i then
        { img with tags := img.tags.filter (fun x => decide (x ≠ t)) }
      else img))

structure ApplySt where
  store : List StoreImage
  nextId : Nat
deriving DecidableEq, Repr

/-- Replaying one picked commit: `commitRebaseHead` commits the builder
back to `name:REBASE_HEAD`, creating a fresh image that takes over the
`REBASE_HEAD` tag. -/
def replayPick (st : ApplySt) : ApplySt :=
  { store := addTagTo (st.store ++ [(⟨st.nextId, []⟩ : StoreImage)]) st.nextId
      rebaseHeadStr,
    nextId := st.nextId + 1 }

/-- The replay loop of `RebaseSession.apply`: indices `Len-1` down to
`0`, skipping drops. -/
def applyReplay (commits : List RebaseCommit) (st : ApplySt) : ApplySt :=
  commits.reverse.foldl
    (fun acc c => if c.choice = .drop then acc else replayPick acc) st

/-- Model of `RebaseSession.Apply` over the tag state: validate the
choices, return at once on an empty list, replay the picks, checkout
`REBASE_HEAD`, then remove the `REBASE_HEAD` tag. -/
def applyGo (commits : List RebaseCommit) (st : ApplySt) :
    Except Str ApplySt :=
  if ¬(∀ c ∈ commits, c.choice = .pick ∨ c.choice = .drop) then
    .error (str "unknown rebase choice")
  else if ¬(∀ c ∈ commits, c.choice = .pick → c.commit.id ≠ []) then
    .error (str "cannot pick a commit with no associated layer id")
  else if commits = [] then .ok st
  else
    let st2 := applyReplay commits st
    match checkoutTag st2.store rebaseHeadStr with
    | .error e => .error e
    | .ok s3 =>
      match removeLocalTagGo s3 rebaseHeadStr with
      | .error e => .error e
      | .ok s4 => .ok { store := s4, nextId := st2.nextId }

/-- Well-formedness of the modelled store: distinct image ids, names
unique across images, and ids below the allocation counter. -/
def StoreWF (st : ApplySt) : Prop :=
  (st.store.map StoreImage.id).Nodup ∧
  st.store.Pairwise (fun a b => ∀ t ∈ a.tags, t ∉ b.tags) ∧
  ∀ img ∈ st.store, img.id < st.nextId

theorem tagHolder_mem {s : List StoreImage} {t : Str} {i : Nat}
    (h : tagHolder s t = some i) :
    ∃ img ∈ s, img.id = i ∧ t ∈ img.tags := by
  rw [tagHolder] at h
  cases hf : s.find? (fun img => decide (t ∈ img.tags)) with
  | none =>
    rw [hf] at h
    cases h
  | some img =>
    rw [hf] at h
    cases h
    refine ⟨img, List.mem_of_find?_eq_some hf, rfl, ?_⟩
    have h2 := List.find?_some hf
    simpa using h2

theorem pairwise_tag_unique {s : List StoreImage}
    (hp : s.Pairwise (fun a b => ∀ t ∈ a.tags, t ∉ b.tags)) :
    ∀ {t : Str} {a b : StoreImage}, a ∈ s → t ∈ a.tags → b ∈ s →
      t ∈ b.tags → a = b := by
  induction hp with
  | nil =>
    intro t a b ha _ _ _
    cases ha
  | cons hd _ ih =>
    intro t a b ha hta hb htb
    rcases List.mem_cons.mp ha with rfl | ha2
    · rcases List.mem_cons.mp hb with rfl | hb2
      · rfl
      · exact absurd htb (hd b hb2 t hta)
    · rcases List.mem_cons.mp hb with rfl | hb2
      · exact absurd hta (hd a ha2 t htb)
      · exact ih ha2 hta hb2 htb

theorem tagHolder_addTagTo {t : Str} :
    ∀ {s : List StoreImage} {i : Nat},
      (∃ img0 ∈ s, img0.id = i) →
      tagHolder (addTagTo s i t) t = some i := by
  intro s
  induction s with
  | nil =>
    intro i h
    obtain ⟨img0, h0, _⟩ := h
    cases h0
  | cons img s' ih =>
    intro i h
    by_cases hid : img.id = i
    · simp only [addTagTo, List.map_cons, if_pos hid]
      rw [tagHolder, List.find?_cons_of_pos _ (by simp)]
      simpa using hid
    · simp only [addTagTo, List.map_cons, if_neg hid]
      rw [tagHolder, List.find?_cons_of_neg _ (by simp)]
      show tagHolder (addTagTo s' i t) t = some i
      apply ih
      obtain ⟨img0, h0, hid0⟩ := h
      rcases List.mem_cons.mp h0 with rfl | h0'
      · exact absurd hid0 hid
      · exact ⟨img0, h0', hid0⟩

theorem tagHolder_addTagTo_strip {t t' : Str} (hne : t ≠ t') :
    ∀ {s : List StoreImage} {i : Nat},
      (∃ img0 ∈ s, img0.id = i) →
      tagHolder ((addTagTo s i t).map (fun img =>
        if img.id = i then
          { img with tags := img.tags.filter (fun x => decide (x ≠ t')) }
        else img)) t = some i := by
  intro s
  induction s with
  | nil =>
    intro i h
    obtain ⟨img0, h0, _⟩ := h
    cases h0
  | cons img s' ih =>
    intro i h
    by_cases hid : img.id = i
    · simp only [addTagTo, List.map_cons, if_pos hid]
      rw [tagHolder, List.find?_cons_of_pos _ (by simp [hne])]
      simpa using hid
    · simp only [addTagTo, List.map_cons, if_neg hid]
      rw [tagHolder, List.find?_cons_of_neg _ (by simp)]
      show tagHolder ((addTagTo s' i t).map _) t = some i
      apply ih
      obtain ⟨img0, h0, hid0⟩ := h
      rcases List.mem_cons.mp h0 with rfl | h0'
      · exact absurd hid0 hid
      · exact ⟨img0, h0', hid0⟩

theorem addTagTo_ids (s : List StoreImage) (i : Nat) (t : Str) :
    (addTagTo s i t).map StoreImage.id = s.map StoreImage.id := by
  rw [addTagTo, List.map_map]
  apply List.map_congr_left
  intro img _
  by_cases h : img.id = i <;> simp [Function.comp, h]

theorem addTagTo_pairwise {s : List StoreImage} {i : Nat} {t : Str}
    (hnd : (s.map StoreImage.id).Nodup)
    (hp : s.Pairwise (fun a b => ∀ u ∈ a.tags, u ∉ b.tags)) :
    (addTagTo s i t).Pairwise (fun a b => ∀ u ∈ a.tags, u ∉ b.tags) := by
  rw [addTagTo, List.pairwise_map]
  rw [List.Nodup, List.pairwise_map] at hnd
  refine (hp.and hnd).imp ?_
  intro a b hab
  obtain ⟨hdisj, hne⟩ := hab
  intro u hu hub
  by_cases ha : a.id = i <;> by_cases hb : b.id = i
  · exact hne (ha.trans hb.symm)
  · simp only [if_pos ha] at hu
    simp only [if_neg hb] at hub
    have hub2 := List.mem_filter.mp hub
    rcases List.mem_append.mp hu with h | h
    · exact hdisj u (List.mem_filter.mp h).1 hub2.1
    · exact (by simpa using hub2.2 : u ≠ t) (List.mem_singleton.mp h)
  · simp only [if_neg ha] at hu
    simp only [if_pos hb] at hub
    have hu2 := List.mem_filter.mp hu
    rcases List.mem_append.mp hub with h | h
    · exact hdisj u hu2.1 (List.mem_filter.mp h).1
    · exact (by simpa using hu2.2 : u ≠ t) (List.mem_singleton.mp h)
  · simp only [if_neg ha] at hu
    simp only [if_neg hb] at hub
    exact hdisj u (List.mem_filter.mp hu).1 (List.mem_filter.mp hub).1

theorem replayPick_wf {st : ApplySt} (h : StoreWF st) :
    StoreWF (replayPick st) := by
  obtain ⟨hnd, hp, hb⟩ := h
  have hnd2 : ((st.store ++ [(⟨st.nextId, []⟩ : StoreImage)]).map StoreImage.id).Nodup := by
    rw [List.map_append, List.nodup_append]
    refine ⟨hnd, by simp, ?_⟩
    intro x hx
    obtain ⟨img, hm, he⟩ := List.mem_map.mp hx
    simp only [List.map_cons, List.map_nil, List.mem_singleton]
    rw [← he]
    exact Nat.ne_of_lt (hb img hm)
  have hp2 : (st.store ++ [(⟨st.nextId, []⟩ : StoreImage)]).Pairwise
      (fun a b => ∀ u ∈ a.tags, u ∉ b.tags) := by
    rw [List.pairwise_append]
    refine ⟨hp, by simp, ?_⟩
    intro a _ b hb2
    simp only [List.mem_singleton] at hb2
    subst hb2
    intro u _
    simp
  refine ⟨?_, addTagTo_pairwise hnd2 hp2, ?_⟩
  · show ((addTagTo (st.store ++ [(⟨st.nextId, []⟩ : StoreImage)]) st.nextId
      rebaseHeadStr).map StoreImage.id).Nodup
    rw [addTagTo_ids]
    exact hnd2
  · intro img hm
    have h2 : img.id ∈ (addTagTo (st.store ++ [(⟨st.nextId, []⟩ : StoreImage)])
        st.nextId rebaseHeadStr).map StoreImage.id :=
      List.mem_map_of_mem _ hm
    rw [addTagTo_ids, List.map_append] at h2
    show img.id < st.nextId + 1
    rcases List.mem_append.mp h2 with h3 | h3
    · obtain ⟨img0, hm0, he⟩ := List.mem_map.mp h3
      rw [← he]
      exact Nat.lt_succ_of_lt (hb img0 hm0)
    · simp only [List.map_cons, List.map_nil, List.mem_singleton] at h3
      rw [h3]
      exact Nat.lt_succ_self _

theorem applyReplay_wf (commits : List RebaseCommit) {st : ApplySt}
    (h : StoreWF st) : StoreWF (applyReplay commits st) := by
  rw [applyReplay]
  generalize commits.reverse = l
  induction l generalizing st with
  | nil => exact h
  | cons c l ih =>
    rw [List.foldl_cons]
    apply ih
    by_cases hc : c.choice = .drop
    · rw [if_pos hc]
      exact h
    · rw [if_neg hc]
      exact replayPick_wf h

/-- C1: whenever `Apply` succeeds on a non-empty commit list over a
well-formed store, at the end the repository's `HEAD` tag is on the
image that carried the `REBASE_HEAD` tag at the end of the replay (the
replay tip), and no image of the final store carries `REBASE_HEAD`. -/
theorem apply_moves_head_and_clears_rebase_head
    {commits : List RebaseCommit} {st st2 : ApplySt}
    (hwf : StoreWF st) (hne : commits ≠ [])
    (h : applyGo commits st = .ok st2) :
    ∃ i, tagHolder (applyReplay commits st).store rebaseHeadStr =
        some i ∧
      tagHolder st2.store headTagStr = some i ∧
      ∀ img ∈ st2.store, rebaseHeadStr ∉ img.tags := by
  rw [applyGo] at h
  by_cases h1 : ¬(∀ c ∈ commits, c.choice = .pick ∨ c.choice = .drop)
  · rw [if_pos h1] at h
    cases h
  rw [if_neg h1] at h
  by_cases h2 : ¬(∀ c ∈ commits, c.choice = .pick → c.commit.id ≠ [])
  · rw [if_pos h2] at h
    cases h
  rw [if_neg h2, if_neg hne] at h
  have h3 : ((match checkoutTag (applyReplay commits st).store
        rebaseHeadStr with
      | .error e => .error e
      | .ok s3 =>
        match removeLocalTagGo s3 rebaseHeadStr with
        | .error e => .error e
        | .ok s4 =>
          .ok (ApplySt.mk s4 (applyReplay commits st).nextId)) :
      Except Str ApplySt) = .ok st2 := h
  cases hco : checkoutTag (applyReplay commits st).store rebaseHeadStr with
  | error e =>
    rw [hco] at h3
    cases h3
  | ok s3 =>
    rw [hco] at h3
    have h4 : ((match removeLocalTagGo s3 rebaseHeadStr with
        | .error e => .error e
        | .ok s4 =>
          .ok (ApplySt.mk s4 (applyReplay commits st).nextId)) :
        Except Str ApplySt) = .ok st2 := h3
    rw [checkoutTag] at hco
    cases hth : tagHolder (applyReplay commits st).store rebaseHeadStr with
    | none =>
      rw [hth] at hco
      cases hco
    | some i =>
      rw [hth] at hco
      cases hco
      obtain ⟨imgW, hmW, hidW, htW⟩ := tagHolder_mem hth
      have hhead : tagHolder (addTagTo (applyReplay commits st).store i
          headTagStr) headTagStr = some i :=
        tagHolder_addTagTo ⟨imgW, hmW, hidW⟩
      rw [removeLocalTagGo, hhead] at h4
      have h5 : (Except.ok (ApplySt.mk
          ((addTagTo (applyReplay commits st).store i headTagStr).map
            (fun img => if img.id = i then
              { img with
                tags := img.tags.filter (fun x => decide (x ≠ rebaseHeadStr)) }
            else img))
          (applyReplay commits st).nextId) : Except Str ApplySt) =
          Except.ok st2 := h4
      cases h5
      refine ⟨i, rfl, ?_, ?_⟩
      · exact tagHolder_addTagTo_strip (by decide) ⟨imgW, hmW, hidW⟩
      · intro img hm hmem
        obtain ⟨hnd2, hp2, _⟩ := applyReplay_wf commits hwf
        obtain ⟨img3, hm3, he⟩ := List.mem_map.mp hm
        by_cases hid3 : img3.id = i
        · rw [if_pos hid3] at he
          rw [← he] at hmem
          have := (List.mem_filter.mp hmem).2
          simp at this
        · rw [if_neg hid3] at he
          rw [← he] at hmem
          rw [addTagTo] at hm3
          obtain ⟨img2, hm2, he2⟩ := List.mem_map.mp hm3
          by_cases hid2 : img2.id = i
          · rw [if_pos hid2] at he2
            rw [← he2] at hid3
            exact hid3 hid2
          · rw [if_neg hid2] at he2
            rw [← he2] at hmem
            have hmem2 : rebaseHeadStr ∈ img2.tags :=
              (List.mem_filter.mp hmem).1
            have heq := pairwise_tag_unique hp2 hm2 hmem2 hmW htW
            rw [heq] at hid2
            exact hid2 hidW

/-- A two-image store in mid-rebase state: `HEAD` on the old tip,
`REBASE_HEAD` on the new base, one picked commit to replay. -/
def demoApplySt : ApplySt :=
  ⟨[⟨0, [headTagStr]⟩, ⟨1, [rebaseHeadStr]⟩], 2⟩

def demoApplyCommits : List RebaseCommit :=
  [⟨⟨str "aaa", [], []⟩, 0, .pick⟩]

theorem apply_moves_head_witness :
    ∃ i, tagHolder (applyReplay demoApplyCommits demoApplySt).store
        rebaseHeadStr = some i ∧
      tagHolder (ApplySt.mk
          [⟨0, []⟩, ⟨1, []⟩, ⟨2, [rebaseHeadStr, headTagStr].filter
            (fun x => decide (x ≠ rebaseHeadStr))⟩] 3).store
        headTagStr = some i ∧
      ∀ img ∈ (ApplySt.mk
          [⟨0, []⟩, ⟨1, []⟩, ⟨2, [rebaseHeadStr, headTagStr].filter
            (fun x => decide (x ≠ rebaseHeadStr))⟩] 3).store,
        rebaseHeadStr ∉ img.tags :=
  apply_moves_head_and_clears_rebase_head (by unfold StoreWF; decide)
    (by decide) (by decide)

end Ocitree
